import Mathlib

/-!
# Verification of the lodviz chart computation kernel

A shallow embedding of the `lodviz_core` crate (scales, downsampling,
statistics, arc geometry, selection model, tidy-table conversion) over exact
rational arithmetic.  Every `f64` of the Rust source is modelled as `ℚ`;
the machine constant `f64::EPSILON = 2^-52` used in the source's degeneracy
guards is kept as the exact rational `EPS`, and `std::f64::consts::PI` is
kept as the exact rational value of that IEEE-754 double.
-/

namespace Lodviz

/-- The exact rational value of `f64::EPSILON` (2⁻⁵²), used by the source's
zero-width guards. -/
def EPS : ℚ := 1 / 2 ^ 52

/-- The exact rational value of the IEEE-754 double `std::f64::consts::PI`. -/
def PIF : ℚ := 884279719003555 / 281474976710656

/-- `DataPoint {x, y}` from `core/data.rs`. -/
structure DataPoint where
  x : ℚ
  y : ℚ
deriving DecidableEq, Repr

/-- Default point used to make list indexing total; every claim we prove
only reads indices that are in bounds. -/
def dp0 : DataPoint := ⟨0, 0⟩

/-! ## LinearScale (`core/scale.rs`, `impl Scale for LinearScale`) -/

/-- `LinearScale { domain, range }`. -/
structure LinearScale where
  domain : ℚ × ℚ
  range : ℚ × ℚ
deriving DecidableEq, Repr

namespace LinearScale

/-- `LinearScale::map`: zero-width-domain guard returning `r0`, otherwise
linear interpolation. -/
def map (s : LinearScale) (value : ℚ) : ℚ :=
  let d0 := s.domain.1; let d1 := s.domain.2
  let r0 := s.range.1; let r1 := s.range.2
  if |d1 - d0| < EPS then r0
  else r0 + (value - d0) / (d1 - d0) * (r1 - r0)

/-- `LinearScale::inverse`: zero-width-range guard returning `d0`, otherwise
the algebraic inverse interpolation. -/
def inverse (s : LinearScale) (mapped : ℚ) : ℚ :=
  let d0 := s.domain.1; let d1 := s.domain.2
  let r0 := s.range.1; let r1 := s.range.2
  if |r1 - r0| < EPS then d0
  else d0 + (mapped - r0) / (r1 - r0) * (d1 - d0)

end LinearScale

/-! ## LTTB downsampling (`algorithms/lttb.rs`) -/

/-- `bucket_size = (data.len() - 2) as f64 / (threshold - 2) as f64`. -/
def bucketSize (n t : Nat) : ℚ := ((n - 2 : Nat) : ℚ) / ((t - 2 : Nat) : ℚ)

/-- The index boundary `((k as f64) * bucket_size + 1.0).floor() as usize`
used for `range_start`, `avg_range_start` and `avg_range_end`. -/
def bnd (n t k : Nat) : Nat := (Int.floor ((k : ℚ) * bucketSize n t + 1)).toNat

/-- The triangle-area value of the inner loop (cross-product formula,
absolute value). -/
def triArea (pa : DataPoint) (ax ay : ℚ) (pb : DataPoint) : ℚ :=
  |(pa.x - ax) * (pb.y - pa.y) - (pa.x - pb.x) * (ay - pa.y)|

/-- The inner `for (offset, point_b)` scan of one bucket: starting at index
`j` with `count` indices remaining, best area `bestA` and best index `bestI`
so far; a new index wins only on strict improvement (`area > max_area`). -/
def bestIdx (data : List DataPoint) (pa : DataPoint) (ax ay : ℚ) :
    Nat → Nat → ℚ → Nat → Nat
  | 0, _, _, bestI => bestI
  | count + 1, j, bestA, bestI =>
      let a := triArea pa ax ay (data.getD j dp0)
      if bestA < a then bestIdx data pa ax ay count (j + 1) a j
      else bestIdx data pa ax ay count (j + 1) bestA bestI

/-- One iteration of the main bucket loop: the chosen point of bucket `i`
(index range `[bnd i, bnd (i+1))`) maximising the triangle area with the
previously selected point `data[prev]` and the centroid of bucket `i+1`
(slice `[bnd (i+1), min (bnd (i+2)) n)`). -/
def chooseIdx (data : List DataPoint) (n t prev i : Nat) : Nat :=
  let ars := bnd n t (i + 1)
  let are := min (bnd n t (i + 2)) n
  let slice := (data.drop ars).take (are - ars)
  let ax := (slice.map DataPoint.x).sum / ((are - ars : Nat) : ℚ)
  let ay := (slice.map DataPoint.y).sum / ((are - ars : Nat) : ℚ)
  let rs := bnd n t i
  let pa := data.getD prev dp0
  bestIdx data pa ax ay (ars - rs) rs (-1) rs

/-- The interior indices selected by the `for i in 0..(threshold - 2)` loop,
starting at bucket `i` with `count` buckets remaining and `prev` the index
of the last selected point. -/
def lttbIndices (data : List DataPoint) (n t : Nat) :
    Nat → Nat → Nat → List Nat
  | _, _, 0 => []
  | prev, i, count + 1 =>
      let idx := chooseIdx data n t prev i
      idx :: lttbIndices data n t idx (i + 1) count

/-- `lttb_downsample(data, threshold)`: first point, one point per interior
bucket, last point; with the documented small-threshold edge cases. -/
def lttb_downsample (data : List DataPoint) (threshold : Nat) : List DataPoint :=
  if data.length ≤ threshold ∨ threshold = 0 then data
  else if threshold = 1 then [data.getD 0 dp0]
  else if threshold = 2 then [data.getD 0 dp0, data.getD (data.length - 1) dp0]
  else
    (0 :: (lttbIndices data data.length threshold 0 0 (threshold - 2) ++
      [data.length - 1])).map (fun i => data.getD i dp0)

/-! ## M4 downsampling (`algorithms/m4.rs`) -/

/-- `min_by` on y: Rust's `Iterator::min_by` keeps the first minimum, so
the accumulator is replaced only on strict improvement. -/
def minByY (h : DataPoint) (t : List DataPoint) : DataPoint :=
  t.foldl (fun acc p => if p.y < acc.y then p else acc) h

/-- `max_by` on y: Rust's `Iterator::max_by` keeps the last maximum, so the
accumulator is replaced on greater-or-equal. -/
def maxByY (h : DataPoint) (t : List DataPoint) : DataPoint :=
  t.foldl (fun acc p => if acc.y ≤ p.y then p else acc) h

/-- The `in_bucket` predicate: `[start, end)`, right-inclusive for the last
bucket. -/
def inBucket (bs be : ℚ) (isLast : Bool) (p : DataPoint) : Bool :=
  decide (bs ≤ p.x) && (decide (p.x < be) || isLast)

/-- The de-duplication test against the previously pushed point (exact
within `f64::EPSILON` on both coordinates). -/
def closePt (prev pt : DataPoint) : Bool :=
  decide (|prev.x - pt.x| < EPS) && decide (|prev.y - pt.y| < EPS)

/-- The `for pt in pts` push loop with de-duplication against
`result.last()`. -/
def pushDedup : List DataPoint → List DataPoint → List DataPoint
  | acc, [] => acc
  | acc, pt :: rest =>
      match acc.getLast? with
      | some prev =>
          if closePt prev pt then pushDedup acc rest
          else pushDedup (acc ++ [pt]) rest
      | none => pushDedup (acc ++ [pt]) rest

/-- One bucket of `m4_downsample`: filter the bucket's points, emit
first/last/min-y/max-y sorted by x, de-duplicated into the accumulator. -/
def m4Bucket (data : List DataPoint) (xmin w : ℚ) (np idx : Nat)
    (acc : List DataPoint) : List DataPoint :=
  let bs := xmin + (idx : ℚ) * w
  let be := bs + w
  let bpts := data.filter (inBucket bs be (decide (idx = np - 1)))
  match bpts with
  | [] => acc
  | h :: t =>
      let pts := [h, (h :: t).getLastD dp0, minByY h t, maxByY h t].mergeSort
        (fun a b => decide (a.x ≤ b.x))
      pushDedup acc pts

/-- The `for bucket_idx in 0..n_pixels` loop. -/
def m4Loop (data : List DataPoint) (xmin w : ℚ) (np : Nat) :
    Nat → Nat → List DataPoint → List DataPoint
  | _, 0, acc => acc
  | i, count + 1, acc =>
      m4Loop data xmin w np (i + 1) count (m4Bucket data xmin w np i acc)

/-- `m4_downsample(data, n_pixels)`. -/
def m4_downsample (data : List DataPoint) (n_pixels : Nat) : List DataPoint :=
  if data.isEmpty ∨ n_pixels = 0 then []
  else if data.length ≤ 4 * n_pixels then data
  else
    if (data.getD (data.length - 1) dp0).x - (data.getD 0 dp0).x ≤ 0 then data
    else
      m4Loop data (data.getD 0 dp0).x
        (((data.getD (data.length - 1) dp0).x - (data.getD 0 dp0).x)
          / (n_pixels : ℚ))
        n_pixels 0 n_pixels []

/-! ## Statistics (`algorithms/statistics.rs`) -/

/-- `extent(data)`: running min/max fold, `None` on empty input. -/
def extent (data : List ℚ) : Option (ℚ × ℚ) :=
  match data with
  | [] => none
  | v :: rest =>
      some (rest.foldl
        (fun mm x => (if x < mm.1 then x else mm.1, if mm.2 < x then x else mm.2))
        (v, v))

/-- `percentile_sorted(sorted, p)`: linear-interpolation percentile on an
already-sorted slice (`h = p·(n-1)`, `lo = ⌊h⌋`, `frac = h - lo`, written
with the `let` bindings of the source inlined). -/
def percentile_sorted (sorted : List ℚ) (p : ℚ) : ℚ :=
  if sorted.length = 0 then 0
  else if sorted.length = 1 then sorted.getD 0 0
  else if sorted.length ≤
      (Int.floor (p * ((sorted.length - 1 : Nat) : ℚ))).toNat + 1 then
    sorted.getD (sorted.length - 1) 0
  else
    sorted.getD (Int.floor (p * ((sorted.length - 1 : Nat) : ℚ))).toNat 0
      * (1 - (p * ((sorted.length - 1 : Nat) : ℚ)
          - ((Int.floor (p * ((sorted.length - 1 : Nat) : ℚ))).toNat : ℚ)))
    + sorted.getD ((Int.floor (p * ((sorted.length - 1 : Nat) : ℚ))).toNat + 1) 0
      * (p * ((sorted.length - 1 : Nat) : ℚ)
          - ((Int.floor (p * ((sorted.length - 1 : Nat) : ℚ))).toNat : ℚ))

/-- `BoxPlotStats`. -/
structure BoxPlotStats where
  q1 : ℚ
  median : ℚ
  q3 : ℚ
  iqr : ℚ
  lower_whisker : ℚ
  upper_whisker : ℚ
  mean : ℚ
  outliers : List ℚ
deriving DecidableEq, Repr

/-- `box_plot_stats(data)`: quartiles by linear interpolation on the sorted
data, Tukey fences at `1.5·IQR`, whiskers the extreme data values inside
the fences, outliers the values strictly outside.  The in-place sort of the
Rust source is modelled by computing on `mergeSort` of the input. -/
def box_plot_stats (data : List ℚ) : Option BoxPlotStats :=
  if data.isEmpty then none
  else
    let s := data.mergeSort (fun a b => decide (a ≤ b))
    let q1 := percentile_sorted s (1 / 4)
    let med := percentile_sorted s (1 / 2)
    let q3 := percentile_sorted s (3 / 4)
    let iqr := q3 - q1
    let lower_fence := q1 - 3 / 2 * iqr
    let upper_fence := q3 + 3 / 2 * iqr
    let lower_whisker := (s.find? (fun x => decide (lower_fence ≤ x))).getD q1
    let upper_whisker :=
      (s.reverse.find? (fun x => decide (x ≤ upper_fence))).getD q3
    let mean_val := s.sum / (s.length : ℚ)
    let outliers := s.filter (fun x => decide (x < lower_fence ∨ upper_fence < x))
    some ⟨q1, med, q3, iqr, lower_whisker, upper_whisker, mean_val, outliers⟩

/-- `BinRule`.  The claims only exercise `Fixed(k)`; the `Sturges`, `Scott`
and `Freedman-Diaconis` bin-count heuristics involve `log2`/`powf`
(transcendental over ℚ) and are not modelled. -/
inductive BinRule where
  | Fixed (k : Nat)
deriving DecidableEq, Repr

/-- `Bin { x0, x1, count }`. -/
structure Bin where
  x0 : ℚ
  x1 : ℚ
  count : Nat
deriving DecidableEq, Repr

/-- The `for &val in data` counting loop of `histogram_bins`: skip values
outside `[min, max]`, floor-index into the bins, clamp into the last bin. -/
def histCount (min_val bin_width max_val : ℚ) (k : Nat) :
    List Bin → List ℚ → List Bin
  | bins, [] => bins
  | bins, val :: rest =>
      if val < min_val ∨ max_val < val then
        histCount min_val bin_width max_val k bins rest
      else
        let idx := min ((Int.floor ((val - min_val) / bin_width)).toNat) (k - 1)
        let b := bins.getD idx ⟨0, 0, 0⟩
        histCount min_val bin_width max_val k
          (bins.set idx ⟨b.x0, b.x1, b.count + 1⟩) rest

/-- `histogram_bins(data, rule)`: empty on empty input; a single
`[min, min+1)` bin when the extent is degenerate (`|max-min| < EPSILON`);
otherwise `max(k,1)` equal-width bins filled by the counting loop. -/
def histogram_bins (data : List ℚ) (rule : BinRule) : List Bin :=
  match data with
  | [] => []
  | _ :: _ =>
    let n := data.length
    let mm := (extent data).getD (0, 0)
    let min_val := mm.1
    let max_val := mm.2
    if |max_val - min_val| < EPS then [⟨min_val, min_val + 1, n⟩]
    else
      let k : Nat := match rule with
        | BinRule.Fixed k => k
      let k : Nat := max k 1
      let bin_width := (max_val - min_val) / (k : ℚ)
      let bins : List Bin := (List.range k).map
        (fun i : ℕ => ⟨min_val + (i : ℚ) * bin_width,
          min_val + ((i : ℚ) + 1) * bin_width, 0⟩)
      histCount min_val bin_width max_val k bins data

/-- `x_mean` of `linear_regression`. -/
def xMean (points : List (ℚ × ℚ)) : ℚ :=
  (points.map Prod.fst).sum / (points.length : ℚ)

/-- `y_mean` of `linear_regression`. -/
def yMean (points : List (ℚ × ℚ)) : ℚ :=
  (points.map Prod.snd).sum / (points.length : ℚ)

/-- The centered cross sum `num` of `linear_regression`. -/
def regNum (points : List (ℚ × ℚ)) : ℚ :=
  (points.map (fun q => (q.1 - xMean points) * (q.2 - yMean points))).sum

/-- The centered square sum `den` of `linear_regression`. -/
def regDen (points : List (ℚ × ℚ)) : ℚ :=
  (points.map (fun q => (q.1 - xMean points) ^ 2)).sum

/-- `linear_regression(points)`: `None` for fewer than two points or when
`|den| < f64::EPSILON`, else the OLS `(β0, β1)`. -/
def linear_regression (points : List (ℚ × ℚ)) : Option (ℚ × ℚ) :=
  if points.length < 2 then none
  else if |regDen points| < EPS then none
  else some (yMean points - regNum points / regDen points * xMean points,
    regNum points / regDen points)

/-! ## Tidy table and encodings (`core/field_value.rs`, `core/encoding.rs`,
`core/data.rs`) -/

/-- `FieldValue`. -/
inductive FieldValue where
  | Numeric (v : ℚ)
  | Text (s : String)
  | Timestamp (v : ℚ)
  | Bool (b : Bool)
  | Null
deriving DecidableEq, Repr

namespace FieldValue

/-- `FieldValue::as_f64`: Numeric/Timestamp pass through, Bool widens to
0/1, Text and Null fail. -/
def as_f64 : FieldValue → Option ℚ
  | .Numeric v => some v
  | .Timestamp v => some v
  | .Bool b => some (if b then 1 else 0)
  | .Text _ => none
  | .Null => none

end FieldValue

/-- `DataRow`: column name → value.  The Rust `HashMap` (unique keys) is
modelled as an association list read through `List.lookup`. -/
abbrev DataRow := List (String × FieldValue)

/-- `DataType`. -/
inductive DataType where
  | Quantitative
  | Temporal
  | Nominal
  | Ordinal
deriving DecidableEq, Repr

/-- `Field { name, data_type }`. -/
structure Field where
  name : String
  data_type : DataType
deriving DecidableEq, Repr

/-- `Encoding { x, y, color?, size? }`. -/
structure Encoding where
  x : Field
  y : Field
  color : Option Field := none
  size : Option Field := none
deriving DecidableEq, Repr

/-- `Series<DataPoint>`; `Series::new` sets `visible = true`. -/
structure Series where
  name : String
  data : List DataPoint
  visible : Bool
deriving DecidableEq, Repr

/-- `Dataset`. -/
structure Dataset where
  series : List Series
deriving DecidableEq, Repr

/-- The stringified group key of `group_by`: Text as-is, Numeric/Timestamp
via number-to-string, Bool via boolean-to-string, missing/Null mapped to
the sentinel key.  (Rust's f64-to-string rendering is modelled by the
canonical rational rendering; both render distinct numbers distinctly.) -/
def groupKey (col : String) (row : DataRow) : String :=
  match List.lookup col row with
  | some (FieldValue.Text s) => s
  | some (FieldValue.Numeric v) => toString v
  | some (FieldValue.Timestamp v) => toString v
  | some (FieldValue.Bool b) => toString b
  | some FieldValue.Null => "__null__"
  | none => "__null__"

/-- `groups.entry(key).or_default().push(row)` on the association-list
model of the `HashMap`. -/
def insertGroup : List (String × List DataRow) → String → DataRow →
    List (String × List DataRow)
  | [], k, r => [(k, [r])]
  | (k', rs) :: rest, k, r =>
      if k' = k then (k', rs ++ [r]) :: rest
      else (k', rs) :: insertGroup rest k r

/-- `DataTable::group_by`: a fold carrying the first-occurrence key order
and the keyed groups, then one `(key, group)` pair per ordered key. -/
def group_by (rows : List DataRow) (col : String) :
    List (String × List DataRow) :=
  let acc := rows.foldl
    (fun (acc : List String × List (String × List DataRow)) row =>
      ((if (acc.2.lookup (groupKey col row)).isSome then acc.1
        else acc.1 ++ [groupKey col row]),
       insertGroup acc.2 (groupKey col row) row))
    ([], [])
  acc.1.map (fun k => (k, (acc.2.lookup k).getD []))

/-- `DataTable::extract_xy`: rows with missing or non-numeric x or y are
silently skipped. -/
def extract_xy (rows : List DataRow) (x_col y_col : String) :
    List DataPoint :=
  rows.filterMap (fun row =>
    match (List.lookup x_col row).bind FieldValue.as_f64,
        (List.lookup y_col row).bind FieldValue.as_f64 with
    | some x, some y => some ⟨x, y⟩
    | some _, none => none
    | none, _ => none)

/-- `DataTable::to_dataset`. -/
def to_dataset (rows : List DataRow) (encoding : Encoding) : Dataset :=
  match encoding.color with
  | some f =>
      ⟨(group_by rows f.name).map
        (fun g => ⟨g.1, extract_xy g.2 encoding.x.name encoding.y.name, true⟩)⟩
  | none =>
      ⟨[⟨"default", extract_xy rows encoding.x.name encoding.y.name, true⟩]⟩

/-- First-occurrence de-duplication of a key list (the spec's
"first-occurrence order"); written from the spec for the refinement
comparison with `group_by`. -/
def firstOccurrence : List String → List String
  | [] => []
  | k :: rest => k :: (firstOccurrence rest).filter (fun k' => decide (k' ≠ k))

/-- The spec's description of `group_by`: the distinct stringified column
values in first-occurrence order, each paired with its rows in table
order; written from the spec for the refinement comparison. -/
def groupBySpec (rows : List DataRow) (col : String) :
    List (String × List DataRow) :=
  (firstOccurrence (rows.map (groupKey col))).map
    (fun k => (k, rows.filter (fun r => decide (groupKey col r = k))))

/-! ## Arc geometry (`algorithms/arc.rs`) -/

/-- `ArcSlice { start_angle, end_angle, value, percentage }`. -/
structure ArcSlice where
  start_angle : ℚ
  end_angle : ℚ
  value : ℚ
  percentage : ℚ
deriving DecidableEq, Repr

/-- The `for &value in values` accumulation loop of `compute_arcs`,
carrying `current_angle`. -/
def computeArcsAux (total : ℚ) : ℚ → List ℚ → List ArcSlice
  | _, [] => []
  | cur, v :: rest =>
      if v ≤ 0 then computeArcsAux total cur rest
      else
        let e := cur + v / total * 2 * PIF
        ⟨cur, e, v, v / total * 100⟩ :: computeArcsAux total e rest

/-- `compute_arcs`: the positive values normalised to a full `2π` circle
starting at `-π/2`. -/
def compute_arcs (values : List ℚ) : List ArcSlice :=
  let total := (values.filter (fun v => decide (0 < v))).sum
  if total ≤ 0 then []
  else computeArcsAux total (-PIF / 2) values

/-! ## Selection (`core/selection.rs`) -/

/-- The `Selection` enum: point indices, interval, or a multi-selection. -/
inductive Selection where
  | Point (indices : List Nat)
  | Interval (x : ℚ × ℚ) (y : Option (ℚ × ℚ))
  | Multi (selections : List Selection)
deriving Repr

namespace Selection

/-- `Selection::interval_x`: swaps the bounds when given in descending
order. -/
def interval_x (x_min x_max : ℚ) : Selection :=
  let p := if x_min ≤ x_max then (x_min, x_max) else (x_max, x_min)
  Selection.Interval p none

/-- `Selection::interval_xy`: swaps each axis' bounds when given in
descending order. -/
def interval_xy (x_min x_max y_min y_max : ℚ) : Selection :=
  let px := if x_min ≤ x_max then (x_min, x_max) else (x_max, x_min)
  let py := if y_min ≤ y_max then (y_min, y_max) else (y_max, y_min)
  Selection.Interval px (some py)

mutual

/-- `Selection::contains_point`. -/
def contains_point : Selection → DataPoint → Nat → Bool
  | .Point indices, _, index => indices.contains index
  | .Interval x y, p, _ =>
      (decide (x.1 ≤ p.x ∧ p.x ≤ x.2)) &&
      (match y with
       | none => true
       | some yb => decide (yb.1 ≤ p.y ∧ p.y ≤ yb.2))
  | .Multi selections, p, index => contains_any selections p index

/-- The `selections.iter().any(...)` loop of the `Multi` arm. -/
def contains_any : List Selection → DataPoint → Nat → Bool
  | [], _, _ => false
  | s :: rest, p, index => contains_point s p index || contains_any rest p index

end

end Selection

end Lodviz

namespace Lodviz

/-! ## Theorems for C1 (LinearScale round trip) and C9 (interval
normalisation) -/

/-- C1: for every `LinearScale`, `inverse (map v) = v` whenever neither the
domain width nor the range width falls under the `EPSILON` guard; in the
degenerate cases `map` constantly returns `r0` (domain guard) and `inverse`
constantly returns `d0` (range guard).  Over exact rational arithmetic the
round trip is exact, hence within any floating tolerance. -/
theorem linear_scale_roundtrip (s : LinearScale) (v : ℚ) :
    (EPS ≤ |s.domain.2 - s.domain.1| → EPS ≤ |s.range.2 - s.range.1| →
      s.inverse (s.map v) = v)
    ∧ (|s.domain.2 - s.domain.1| < EPS → s.map v = s.range.1)
    ∧ (|s.range.2 - s.range.1| < EPS → ∀ m, s.inverse m = s.domain.1) := by
  refine ⟨fun hd hr => ?_, fun hd => ?_, fun hr m => ?_⟩
  · have hd' : ¬ |s.domain.2 - s.domain.1| < EPS := not_lt.mpr hd
    have hr' : ¬ |s.range.2 - s.range.1| < EPS := not_lt.mpr hr
    have hdne : s.domain.2 - s.domain.1 ≠ 0 := by
      intro h
      rw [h] at hd
      simp only [abs_zero] at hd
      exact absurd hd (by norm_num [EPS])
    have hrne : s.range.2 - s.range.1 ≠ 0 := by
      intro h
      rw [h] at hr
      simp only [abs_zero] at hr
      exact absurd hr (by norm_num [EPS])
    simp only [LinearScale.map, LinearScale.inverse, hd', hr', if_neg,
      if_false]
    field_simp
    ring
  · simp only [LinearScale.map, hd, if_true]
  · simp only [LinearScale.inverse, hr, if_true]

/-- Witness for the hypotheses of `linear_scale_roundtrip`: the scale
`domain (0,100) → range (0,500)` at `v = 50`. -/
theorem linear_scale_roundtrip_witness :
    EPS ≤ |(⟨(0, 100), (0, 500)⟩ : LinearScale).domain.2 -
      (⟨(0, 100), (0, 500)⟩ : LinearScale).domain.1|
    ∧ (⟨(0, 100), (0, 500)⟩ : LinearScale).inverse
        ((⟨(0, 100), (0, 500)⟩ : LinearScale).map 50) = 50 :=
  ⟨by norm_num [EPS],
   (linear_scale_roundtrip ⟨(0, 100), (0, 500)⟩ 50).1
     (by norm_num [EPS]) (by norm_num [EPS])⟩

/-! ### Helper lemmas about list indexing and the LTTB index loop -/

/-- The interior loop emits exactly `count` indices. -/
theorem lttbIndices_length (data : List DataPoint) (n t : Nat) :
    ∀ count prev i, (lttbIndices data n t prev i count).length = count := by
  intro count
  induction count with
  | zero => intro prev i; rfl
  | succ c ih => intro prev i; simp [lttbIndices, ih]

/-- `getD` at the length of the left part of an appended singleton. -/
theorem getD_append_length {α : Type} (l : List α) (x d : α) :
    (l ++ [x]).getD l.length d = x := by
  induction l with
  | nil => rfl
  | cons a r ih => simp [ih]

/-- C2: for `2 ≤ t ≤ data.len()` the LTTB output has length exactly `t`,
starts with `data[0]` and ends with `data[data.len()-1]`; `t = 0` or
`t ≥ data.len()` returns the input unchanged, and `t = 1` on non-empty data
returns only the first point. -/
theorem lttb_shape (data : List DataPoint) (t : Nat) :
    (2 ≤ t → t ≤ data.length →
      (lttb_downsample data t).length = t
      ∧ (lttb_downsample data t).getD 0 dp0 = data.getD 0 dp0
      ∧ (lttb_downsample data t).getD ((lttb_downsample data t).length - 1) dp0
          = data.getD (data.length - 1) dp0)
    ∧ (t = 0 ∨ data.length ≤ t → lttb_downsample data t = data)
    ∧ (t = 1 → data ≠ [] → lttb_downsample data t = [data.getD 0 dp0]) := by
  refine ⟨fun h2 hle => ?_, fun h0 => ?_, fun h1 hne => ?_⟩
  · rcases Nat.lt_or_ge t data.length with hlt | hge
    · -- t < data.length: the guard fails
      have hg : ¬ (data.length ≤ t ∨ t = 0) := by omega
      rcases Nat.lt_or_ge 2 t with h3 | h2'
      · -- 3 ≤ t: main branch
        have hne1 : t ≠ 1 := by omega
        have hne2 : t ≠ 2 := by omega
        simp only [lttb_downsample, if_neg hg, if_neg hne1, if_neg hne2]
        refine ⟨?_, ?_, ?_⟩
        · simp [lttbIndices_length]
          omega
        · rfl
        · have hsplit :
              (0 :: (lttbIndices data data.length t 0 0 (t - 2) ++
                [data.length - 1])).map (fun i => data.getD i dp0)
              = ((0 :: lttbIndices data data.length t 0 0 (t - 2)).map
                  (fun i => data.getD i dp0)) ++ [data.getD (data.length - 1) dp0] := by
            simp
          rw [hsplit]
          have hlen :
              (((0 :: lttbIndices data data.length t 0 0 (t - 2)).map
                  (fun i => data.getD i dp0)) ++
                [data.getD (data.length - 1) dp0]).length - 1
              = ((0 :: lttbIndices data data.length t 0 0 (t - 2)).map
                  (fun i => data.getD i dp0)).length := by
            simp
          rw [hlen, getD_append_length]
      · -- t = 2
        have ht2 : t = 2 := by omega
        subst ht2
        simp only [lttb_downsample, if_neg hg]
        norm_num
    · -- t = data.length: input returned unchanged
      have ht : data.length = t := by omega
      have hg : data.length ≤ t ∨ t = 0 := Or.inl (le_of_eq ht)
      simp only [lttb_downsample, if_pos hg]
      exact ⟨ht, by trivial, by trivial⟩
  · have hg : data.length ≤ t ∨ t = 0 := h0.symm
    simp only [lttb_downsample, if_pos hg]
  · subst h1
    rcases Nat.lt_or_ge data.length 2 with hs | hl
    · have h1' : data.length = 1 := by
        have : data.length ≠ 0 := fun h => hne (List.eq_nil_of_length_eq_zero h)
        omega
      have hg : data.length ≤ 1 ∨ (1 : Nat) = 0 := Or.inl (le_of_eq h1')
      simp only [lttb_downsample, if_pos hg]
      rcases List.length_eq_one.mp h1' with ⟨a, ha⟩
      simp [ha]
    · have hg : ¬ (data.length ≤ 1 ∨ (1 : Nat) = 0) := by omega
      simp only [lttb_downsample, if_neg hg]
      simp

/-- Witness for `lttb_shape`: data of length 5, threshold 3. -/
theorem lttb_shape_witness :
    (2 ≤ 3 ∧ 3 ≤ ([⟨0, 0⟩, ⟨1, 5⟩, ⟨2, 1⟩, ⟨3, 4⟩, ⟨4, 2⟩] :
      List DataPoint).length)
    ∧ (lttb_downsample [⟨0, 0⟩, ⟨1, 5⟩, ⟨2, 1⟩, ⟨3, 4⟩, ⟨4, 2⟩] 3).length = 3 :=
  ⟨⟨by norm_num, by norm_num⟩,
   ((lttb_shape [⟨0, 0⟩, ⟨1, 5⟩, ⟨2, 1⟩, ⟨3, 4⟩, ⟨4, 2⟩] 3).1
     (by norm_num) (by norm_num)).1⟩

/-! ### C10: the LTTB output is a subsequence of its input -/

/-- The inner scan returns either its running best index or an index it
visited. -/
theorem bestIdx_mem (data : List DataPoint) (pa : DataPoint) (ax ay : ℚ) :
    ∀ count j bestA bestI,
      bestIdx data pa ax ay count j bestA bestI = bestI
      ∨ (j ≤ bestIdx data pa ax ay count j bestA bestI
          ∧ bestIdx data pa ax ay count j bestA bestI < j + count) := by
  intro count
  induction count with
  | zero => intro j bestA bestI; exact Or.inl rfl
  | succ c ih =>
    intro j bestA bestI
    simp only [bestIdx]
    by_cases h : bestA < triArea pa ax ay (data.getD j dp0)
    · simp only [if_pos h]
      rcases ih (j + 1) (triArea pa ax ay (data.getD j dp0)) j with h' | h'
      · right; omega
      · right; omega
    · simp only [if_neg h]
      rcases ih (j + 1) bestA bestI with h' | h'
      · left; exact h'
      · right; omega

/-- The inner scan started at `rs` with `re - rs` steps and initial best
index `rs` returns an index in `[rs, re)` whenever `rs < re`. -/
theorem bestIdx_range (data : List DataPoint) (pa : DataPoint) (ax ay : ℚ)
    (rs re : Nat) (h : rs < re) :
    rs ≤ bestIdx data pa ax ay (re - rs) rs (-1) rs
    ∧ bestIdx data pa ax ay (re - rs) rs (-1) rs < re := by
  rcases bestIdx_mem data pa ax ay (re - rs) rs (-1) rs with h' | h' <;> omega

/-- The chosen index of bucket `i` lies inside that bucket's index range. -/
theorem chooseIdx_bounds (data : List DataPoint) (n t prev i : Nat)
    (h : bnd n t i < bnd n t (i + 1)) :
    bnd n t i ≤ chooseIdx data n t prev i
    ∧ chooseIdx data n t prev i < bnd n t (i + 1) := by
  simp only [chooseIdx]
  exact bestIdx_range data _ _ _ _ _ h

/-- For `3 ≤ t < n` the bucket width exceeds 1, so consecutive bucket
boundaries are strictly increasing. -/
theorem bnd_strict_mono (n t : Nat) (h3 : 3 ≤ t) (hlt : t < n) :
    ∀ k, bnd n t k < bnd n t (k + 1) := by
  intro k
  have hbs : (1 : ℚ) ≤ bucketSize n t := by
    unfold bucketSize
    rw [le_div_iff₀ (by exact_mod_cast Nat.sub_pos_of_lt (by omega))]
    calc 1 * (((t - 2 : Nat) : ℚ)) = ((t - 2 : Nat) : ℚ) := one_mul _
      _ ≤ ((n - 2 : Nat) : ℚ) := by
          have : (t - 2 : Nat) ≤ (n - 2 : Nat) := by omega
          exact_mod_cast this
  have hpos : (0 : ℚ) ≤ (k : ℚ) * bucketSize n t + 1 := by
    have : (0 : ℚ) ≤ (k : ℚ) * bucketSize n t := by
      apply mul_nonneg (by positivity)
      linarith
    linarith
  unfold bnd
  have step : ((k : ℚ) * bucketSize n t + 1) + 1
      ≤ ((k + 1 : Nat) : ℚ) * bucketSize n t + 1 := by
    push_cast
    nlinarith
  have hfl : Int.floor ((k : ℚ) * bucketSize n t + 1) + 1
      ≤ Int.floor (((k + 1 : Nat) : ℚ) * bucketSize n t + 1) := by
    calc Int.floor ((k : ℚ) * bucketSize n t + 1) + 1
        = Int.floor (((k : ℚ) * bucketSize n t + 1) + 1) :=
          (Int.floor_add_one _).symm
      _ ≤ _ := Int.floor_mono step
  have h0 : (0 : ℤ) ≤ Int.floor ((k : ℚ) * bucketSize n t + 1) :=
    Int.le_floor.mpr (by exact_mod_cast hpos)
  omega

/-- `range_start` of bucket 0 is index 1. -/
theorem bnd_zero (n t : Nat) : bnd n t 0 = 1 := by
  unfold bnd
  norm_num

/-- `avg_range_start` of the last interior bucket is `n - 1` (exact
rational arithmetic: `(t-2) * ((n-2)/(t-2)) = n-2`). -/
theorem bnd_top (n t : Nat) (h3 : 3 ≤ t) (hlt : t < n) :
    bnd n t (t - 2) = n - 1 := by
  unfold bnd bucketSize
  have hne : (((t - 2 : Nat)) : ℚ) ≠ 0 := by
    have : (0 : Nat) < t - 2 := by omega
    exact_mod_cast Nat.pos_iff_ne_zero.mp this
  rw [mul_div_cancel₀ _ hne]
  have hnat : n - 2 + 1 = n - 1 := by omega
  have : (((n - 2 : Nat)) : ℚ) + 1 = ((n - 1 : Nat) : ℚ) := by
    exact_mod_cast congrArg (Nat.cast : Nat → ℚ) hnat
  rw [this, Int.floor_natCast, Int.toNat_natCast]

/-- `bnd` is monotone in the bucket number (in the `3 ≤ t < n` regime). -/
theorem bnd_mono (n t : Nat) (h3 : 3 ≤ t) (hlt : t < n) :
    ∀ k c, bnd n t k ≤ bnd n t (k + c) := by
  intro k c
  induction c with
  | zero => exact le_refl _
  | succ d ih =>
    show bnd n t k ≤ bnd n t ((k + d) + 1)
    have := bnd_strict_mono n t h3 hlt (k + d)
    omega

/-- Every index emitted by the interior loop lies in the union of its
buckets' index ranges. -/
theorem lttbIndices_bounds (data : List DataPoint) (n t : Nat)
    (h3 : 3 ≤ t) (hlt : t < n) :
    ∀ count i prev, ∀ x ∈ lttbIndices data n t prev i count,
      bnd n t i ≤ x ∧ x < bnd n t (i + count) := by
  intro count
  induction count with
  | zero => intro i prev x hx; simp [lttbIndices] at hx
  | succ c ih =>
    intro i prev x hx
    rw [show i + (c + 1) = (i + 1) + c from by omega]
    simp only [lttbIndices, List.mem_cons] at hx
    rcases hx with rfl | hx
    · have hb := chooseIdx_bounds data n t prev i (bnd_strict_mono n t h3 hlt i)
      have hm := bnd_mono n t h3 hlt (i + 1) c
      omega
    · have := ih (i + 1) (chooseIdx data n t prev i) x hx
      have hs := bnd_strict_mono n t h3 hlt i
      omega

/-- The interior loop's indices are strictly increasing. -/
theorem lttbIndices_chain (data : List DataPoint) (n t : Nat)
    (h3 : 3 ≤ t) (hlt : t < n) :
    ∀ count i prev, List.Chain' (· < ·) (lttbIndices data n t prev i count) := by
  intro count
  induction count with
  | zero => intro i prev; simp [lttbIndices]
  | succ c ih =>
    intro i prev
    simp only [lttbIndices]
    rw [List.chain'_cons']
    refine ⟨?_, ih (i + 1) (chooseIdx data n t prev i)⟩
    intro y hy
    have hmem : y ∈ lttbIndices data n t (chooseIdx data n t prev i) (i + 1) c := by
      cases c with
      | zero => simp [lttbIndices] at hy
      | succ d =>
        simp only [lttbIndices, List.head?_cons, Option.mem_def,
          Option.some.injEq] at hy
        subst hy
        simp [lttbIndices]
    have hb := lttbIndices_bounds data n t h3 hlt c (i + 1)
      (chooseIdx data n t prev i) y hmem
    have hc := chooseIdx_bounds data n t prev i (bnd_strict_mono n t h3 hlt i)
    omega

/-- Mapping a strictly increasing in-bounds index list through `getD` yields
a subsequence of the suffix from the least admissible index on. -/
theorem sublist_map_getD {α : Type} (l : List α) (d : α) :
    ∀ (is : List Nat) (k : Nat), is.Pairwise (· < ·) →
      (∀ i ∈ is, k ≤ i ∧ i < l.length) →
      (is.map (fun i => l.getD i d)).Sublist (l.drop k) := by
  intro is
  induction is with
  | nil => intro k _ _; simp
  | cons i rest ih =>
    intro k hp hb
    have hik : k ≤ i := (hb i (List.mem_cons_self i rest)).1
    have hil : i < l.length := (hb i (List.mem_cons_self i rest)).2
    have hdecomp : l.drop k
        = (l.drop k).take (i - k) ++ (l.getD i d :: l.drop (i + 1)) := by
      have h1 : (l.drop k).drop (i - k) = l.drop i := by
        rw [List.drop_drop]
        congr 1
        omega
      have h2 : l.drop i = l[i] :: l.drop (i + 1) := List.drop_eq_getElem_cons hil
      rw [List.getD_eq_getElem l d hil]
      calc l.drop k = (l.drop k).take (i - k) ++ (l.drop k).drop (i - k) :=
            (List.take_append_drop _ _).symm
        _ = (l.drop k).take (i - k) ++ (l[i] :: l.drop (i + 1)) := by rw [h1, h2]
    rw [hdecomp]
    have hrest : ((rest.map (fun i => l.getD i d))).Sublist (l.drop (i + 1)) := by
      apply ih (i + 1) (List.Pairwise.of_cons hp)
      intro j hj
      have hij : i < j := (List.pairwise_cons.mp hp).1 j hj
      have := (hb j (List.mem_cons_of_mem i hj)).2
      omega
    have hcons : ((i :: rest).map (fun i => l.getD i d)).Sublist
        (l.getD i d :: l.drop (i + 1)) := by
      simp only [List.map_cons]
      exact List.Sublist.cons₂ _ hrest
    exact hcons.trans (List.sublist_append_right _ _)

/-- C10: for `3 ≤ t < data.len()`, the LTTB output is a subsequence of the
input — every output point is an input point and the selected indices are
strictly increasing, preserving input order regardless of x-monotonicity. -/
theorem lttb_sublist (data : List DataPoint) (t : Nat)
    (h3 : 3 ≤ t) (hlt : t < data.length) :
    (lttb_downsample data t).Sublist data := by
  have hg : ¬ (data.length ≤ t ∨ t = 0) := by omega
  have hne1 : t ≠ 1 := by omega
  have hne2 : t ≠ 2 := by omega
  simp only [lttb_downsample, if_neg hg, if_neg hne1, if_neg hne2]
  have hidx := lttbIndices_bounds data data.length t h3 hlt (t - 2) 0 0
  rw [show 0 + (t - 2) = t - 2 from by omega] at hidx
  rw [bnd_zero, bnd_top data.length t h3 hlt] at hidx
  have hchain := lttbIndices_chain data data.length t h3 hlt (t - 2) 0 0
  have hpw : (0 :: (lttbIndices data data.length t 0 0 (t - 2) ++
      [data.length - 1])).Pairwise (· < ·) := by
    rw [List.pairwise_cons]
    constructor
    · intro a ha
      rcases List.mem_append.mp ha with h | h
      · exact lt_of_lt_of_le one_pos (hidx a h).1
      · simp only [List.mem_singleton] at h
        omega
    · rw [List.pairwise_append]
      refine ⟨List.chain'_iff_pairwise.mp hchain, List.pairwise_singleton _ _,
        fun a ha b hb => ?_⟩
      simp only [List.mem_singleton] at hb
      subst hb
      exact (hidx a ha).2
  have hbnds : ∀ i ∈ (0 :: (lttbIndices data data.length t 0 0 (t - 2) ++
      [data.length - 1])), 0 ≤ i ∧ i < data.length := by
    intro i hi
    rcases List.mem_cons.mp hi with rfl | hi
    · omega
    · rcases List.mem_append.mp hi with h | h
      · have := hidx i h
        omega
      · simp only [List.mem_singleton] at h
        omega
  have := sublist_map_getD data dp0
    (0 :: (lttbIndices data data.length t 0 0 (t - 2) ++ [data.length - 1]))
    0 hpw hbnds
  simpa using this

/-- Witness for `lttb_sublist`: data of length 5, threshold 3. -/
theorem lttb_sublist_witness :
    (3 ≤ 3 ∧ 3 < ([⟨0, 0⟩, ⟨1, 5⟩, ⟨2, 1⟩, ⟨3, 4⟩, ⟨4, 2⟩] :
      List DataPoint).length)
    ∧ (lttb_downsample [⟨0, 0⟩, ⟨1, 5⟩, ⟨2, 1⟩, ⟨3, 4⟩, ⟨4, 2⟩] 3).Sublist
        [⟨0, 0⟩, ⟨1, 5⟩, ⟨2, 1⟩, ⟨3, 4⟩, ⟨4, 2⟩] :=
  ⟨⟨by norm_num, by norm_num⟩,
   lttb_sublist [⟨0, 0⟩, ⟨1, 5⟩, ⟨2, 1⟩, ⟨3, 4⟩, ⟨4, 2⟩] 3
     (by norm_num) (by norm_num)⟩

/-! ### C7: arc slice computation -/

/-- A non-empty list of positive filtered values has a positive sum. -/
theorem filter_pos_sum_pos (l : List ℚ)
    (h : l.filter (fun v => decide (0 < v)) ≠ []) :
    0 < (l.filter (fun v => decide (0 < v))).sum := by
  apply List.sum_pos
  · intro x hx
    exact of_decide_eq_true (List.mem_filter.mp hx).2
  · exact h

/-- Structure of the `compute_arcs` loop: the emitted slices carry exactly
the positive values in order, correct percentage/span per slice, the head
starts at the carried angle, and consecutive slices are contiguous. -/
theorem computeArcsAux_spec (total : ℚ) :
    ∀ (vals : List ℚ) (cur : ℚ),
      ((computeArcsAux total cur vals).map ArcSlice.value
        = vals.filter (fun v => decide (0 < v)))
      ∧ (∀ a ∈ computeArcsAux total cur vals,
          a.percentage = a.value / total * 100
          ∧ a.end_angle = a.start_angle + a.value / total * 2 * PIF
          ∧ 0 < a.value)
      ∧ (∀ a, (computeArcsAux total cur vals).head? = some a →
          a.start_angle = cur)
      ∧ List.Chain' (fun a b => b.start_angle = a.end_angle)
          (computeArcsAux total cur vals) := by
  intro vals
  induction vals with
  | nil =>
    intro cur
    refine ⟨rfl, ?_, ?_, ?_⟩ <;> simp [computeArcsAux]
  | cons v rest ih =>
    intro cur
    by_cases hv : v ≤ 0
    · have hft : ¬ (0 < v) := not_lt.mpr hv
      simp only [computeArcsAux, if_pos hv]
      rcases ih cur with ⟨h1, h2, h3, h4⟩
      refine ⟨?_, h2, h3, h4⟩
      rw [h1, List.filter_cons]
      simp [hft]
    · have hv' : 0 < v := lt_of_not_le hv
      simp only [computeArcsAux, if_neg hv]
      rcases ih (cur + v / total * 2 * PIF) with ⟨h1, h2, h3, h4⟩
      refine ⟨?_, ?_, ?_, ?_⟩
      · rw [List.map_cons, h1, List.filter_cons]
        simp [hv']
      · intro a ha
        rcases List.mem_cons.mp ha with rfl | ha
        · exact ⟨rfl, rfl, hv'⟩
        · exact h2 a ha
      · intro a ha
        simp only [List.head?_cons, Option.some.injEq] at ha
        rw [← ha]
      · rw [List.chain'_cons']
        exact ⟨fun y hy => h3 y hy, h4⟩

/-- C7: `compute_arcs` drops non-positive values, normalises the positive
sum to `2π` (each span is `value/total · 2π`), emits slices in input order
starting at `-π/2` with positive (clockwise) spans and contiguous angles,
and carries `percentage = value/total · 100`; degenerate inputs (empty or
all non-positive) yield no slices.  The concrete conjuncts check
`[25, 50, 25]`, `[]` and `[0, 0]`. -/
theorem compute_arcs_spec (values : List ℚ) :
    ((compute_arcs values).map ArcSlice.value
      = values.filter (fun v => decide (0 < v)))
    ∧ (∀ a ∈ compute_arcs values,
        a.percentage = a.value / (values.filter (fun v => decide (0 < v))).sum * 100
        ∧ a.end_angle = a.start_angle
            + a.value / (values.filter (fun v => decide (0 < v))).sum * 2 * PIF
        ∧ a.start_angle < a.end_angle)
    ∧ (∀ a, (compute_arcs values).head? = some a → a.start_angle = -PIF / 2)
    ∧ List.Chain' (fun a b => b.start_angle = a.end_angle) (compute_arcs values)
    ∧ ((values.filter (fun v => decide (0 < v))).sum ≤ 0 →
        compute_arcs values = [])
    ∧ (compute_arcs [25, 50, 25]).map ArcSlice.percentage = [25, 50, 25]
    ∧ ((compute_arcs [25, 50, 25]).map ArcSlice.percentage).sum = 100
    ∧ compute_arcs [] = []
    ∧ compute_arcs [(0 : ℚ), 0] = [] := by
  by_cases ht : (values.filter (fun v => decide (0 < v))).sum ≤ 0
  · have hz : compute_arcs values = [] := by
      simp only [compute_arcs, if_pos ht]
    have hfe : values.filter (fun v => decide (0 < v)) = [] := by
      by_contra hne
      exact absurd (filter_pos_sum_pos values hne) (not_lt.mpr ht)
    rw [hz, hfe]
    refine ⟨rfl, by simp, by simp, by simp, fun _ => rfl, ?_, ?_, ?_, ?_⟩
    · norm_num [compute_arcs, computeArcsAux, List.filter_cons]
    · norm_num [compute_arcs, computeArcsAux, List.filter_cons]
    · norm_num [compute_arcs]
    · norm_num [compute_arcs, computeArcsAux, List.filter_cons]
  · have ht' : 0 < (values.filter (fun v => decide (0 < v))).sum :=
      lt_of_not_le ht
    have hz : compute_arcs values
        = computeArcsAux ((values.filter (fun v => decide (0 < v))).sum)
            (-PIF / 2) values := by
      simp only [compute_arcs, if_neg ht]
    rcases computeArcsAux_spec ((values.filter (fun v => decide (0 < v))).sum)
      values (-PIF / 2) with ⟨h1, h2, h3, h4⟩
    rw [hz]
    refine ⟨h1, ?_, h3, h4, fun hc => absurd hc ht, ?_, ?_, ?_, ?_⟩
    · intro a ha
      rcases h2 a ha with ⟨hp, he, hpos⟩
      refine ⟨hp, he, ?_⟩
      rw [he]
      have hPIF : (0 : ℚ) < PIF := by norm_num [PIF]
      have : 0 < a.value / (values.filter (fun v => decide (0 < v))).sum
          * 2 * PIF := by positivity
      linarith
    · norm_num [compute_arcs, computeArcsAux, List.filter_cons]
    · norm_num [compute_arcs, computeArcsAux, List.filter_cons]
    · norm_num [compute_arcs]
    · norm_num [compute_arcs, computeArcsAux, List.filter_cons]

end Lodviz

namespace Lodviz

/-! ### C6: linear regression error handling -/

/-- Counterexample to C6 as stated: two points with distinct x values of
spread 2⁻³⁰ give a centered square sum of 2⁻⁶¹ `< f64::EPSILON`, so the
code returns `None` although `n = 2` and the x values are not all
identical. -/
theorem linear_regression_counterexample :
    linear_regression [((0 : ℚ), 0), ((1 / 2 ^ 30 : ℚ), 0)] = none
    ∧ ([((0 : ℚ), 0), ((1 / 2 ^ 30 : ℚ), 0)] : List (ℚ × ℚ)).length = 2
    ∧ ¬ (∀ p ∈ ([((0 : ℚ), 0), ((1 / 2 ^ 30 : ℚ), 0)] : List (ℚ × ℚ)),
          ∀ q ∈ ([((0 : ℚ), 0), ((1 / 2 ^ 30 : ℚ), 0)] : List (ℚ × ℚ)),
          p.1 = q.1) := by
  refine ⟨?_, rfl, ?_⟩
  · norm_num [linear_regression, regDen, xMean, EPS]
    intro hcon
    rw [abs_of_pos (by norm_num)] at hcon
    norm_num at hcon
  · intro h
    have := h ((0 : ℚ), (0 : ℚ)) (by norm_num)
      ((1 / 2 ^ 30 : ℚ), (0 : ℚ)) (by norm_num)
    norm_num at this

/-- C6 amended: `linear_regression` returns `None` iff fewer than two
points or the centered square sum `den` satisfies `|den| < EPSILON` (a
strictly weaker condition than "all x identical": identical x still forces
`None`, but so do distinct x with a tiny spread); any returned pair is the
OLS intercept/slope from centered sums. -/
theorem linear_regression_spec (points : List (ℚ × ℚ)) :
    (linear_regression points = none ↔
      points.length < 2 ∨ |regDen points| < EPS)
    ∧ (2 ≤ points.length → (∀ p ∈ points, ∀ q ∈ points, p.1 = q.1) →
        linear_regression points = none)
    ∧ (∀ b0 b1, linear_regression points = some (b0, b1) →
        b1 = regNum points / regDen points
        ∧ b0 = yMean points - b1 * xMean points) := by
  refine ⟨?_, ?_, ?_⟩
  · unfold linear_regression
    split_ifs with h1 h2
    · simp [h1]
    · simp [h1, h2]
    · simp [h1, h2]
  · intro hlen hall
    have hne : points ≠ [] := by
      intro h
      rw [h] at hlen
      simp at hlen
    have hhm := List.head_mem hne
    have hallc : ∀ p ∈ points, p.1 = (points.head hne).1 :=
      fun p hp => hall p hp (points.head hne) hhm
    have hxsum : (points.map Prod.fst).sum
        = (points.map Prod.fst).length • (points.head hne).1 := by
      apply List.sum_eq_card_nsmul
      intro x hx
      obtain ⟨p, hp, rfl⟩ := List.mem_map.mp hx
      exact hallc p hp
    have hxmean : xMean points = (points.head hne).1 := by
      unfold xMean
      rw [hxsum, List.length_map, nsmul_eq_mul]
      have hn0 : (points.length : ℚ) ≠ 0 := by
        have : points.length ≠ 0 := by omega
        exact_mod_cast this
      field_simp
    have hden : regDen points = 0 := by
      unfold regDen
      apply List.sum_eq_zero
      intro x hx
      obtain ⟨p, hp, rfl⟩ := List.mem_map.mp hx
      rw [hxmean, hallc p hp]
      ring
    unfold linear_regression
    rw [hden]
    have : ¬ points.length < 2 := by omega
    simp [this, EPS]
  · intro b0 b1 hsome
    unfold linear_regression at hsome
    split_ifs at hsome
    simp only [Option.some.injEq, Prod.mk.injEq] at hsome
    exact ⟨hsome.2.symm, by rw [← hsome.1, hsome.2]⟩

/-! ### C4: histogram bins with a fixed bin count -/

/-- The min/max fold of `extent` keeps a sound, ordered pair bounding the
initial accumulator and every folded value. -/
theorem extent_fold (rest : List ℚ) :
    ∀ a b : ℚ, a ≤ b →
      (rest.foldl (fun mm x =>
          (if x < mm.1 then x else mm.1, if mm.2 < x then x else mm.2))
        (a, b)).1 ≤ a
      ∧ b ≤ (rest.foldl (fun mm x =>
          (if x < mm.1 then x else mm.1, if mm.2 < x then x else mm.2))
        (a, b)).2
      ∧ (rest.foldl (fun mm x =>
          (if x < mm.1 then x else mm.1, if mm.2 < x then x else mm.2))
        (a, b)).1 ≤ (rest.foldl (fun mm x =>
          (if x < mm.1 then x else mm.1, if mm.2 < x then x else mm.2))
        (a, b)).2
      ∧ (∀ v ∈ rest,
          (rest.foldl (fun mm x =>
              (if x < mm.1 then x else mm.1, if mm.2 < x then x else mm.2))
            (a, b)).1 ≤ v
          ∧ v ≤ (rest.foldl (fun mm x =>
              (if x < mm.1 then x else mm.1, if mm.2 < x then x else mm.2))
            (a, b)).2) := by
  induction rest with
  | nil =>
    intro a b hab
    exact ⟨le_refl a, le_refl b, hab, by simp⟩
  | cons x rest ih =>
    intro a b hab
    simp only [List.foldl_cons]
    have step : ((if x < a then x else a) : ℚ) ≤ (if b < x then x else b) := by
      split_ifs with h1 h2 h3 <;> linarith
    have hxa : ((if x < a then x else a) : ℚ) ≤ a := by
      split_ifs with h <;> linarith
    have hbx : b ≤ ((if b < x then x else b) : ℚ) := by
      split_ifs with h <;> linarith
    have hx1 : ((if x < a then x else a) : ℚ) ≤ x := by
      split_ifs with h <;> linarith
    have hx2 : x ≤ ((if b < x then x else b) : ℚ) := by
      split_ifs with h <;> linarith
    rcases ih (if x < a then x else a) (if b < x then x else b) step with
      ⟨h1, h2, h3, h4⟩
    refine ⟨le_trans h1 hxa, le_trans hbx h2, h3, ?_⟩
    intro v hv
    rcases List.mem_cons.mp hv with rfl | hv
    · exact ⟨le_trans h1 hx1, le_trans hx2 h2⟩
    · exact h4 v hv

/-- `extent` of a non-empty list is an ordered pair bounding every
element. -/
theorem extent_spec (data : List ℚ) (hne : data ≠ []) :
    ∃ mn mx, extent data = some (mn, mx) ∧ mn ≤ mx
      ∧ ∀ v ∈ data, mn ≤ v ∧ v ≤ mx := by
  match data, hne with
  | v :: rest, _ =>
    rcases extent_fold rest v v (le_refl v) with ⟨h1, h2, h3, h4⟩
    refine ⟨_, _, rfl, h3, ?_⟩
    intro w hw
    rcases List.mem_cons.mp hw with rfl | hw
    · exact ⟨h1, h2⟩
    · exact h4 w hw

/-- Setting a bin to its incremented copy adds one to the total count. -/
theorem sum_count_set (x0 x1 : ℚ) :
    ∀ (bins : List Bin) (idx : Nat), idx < bins.length →
      ((bins.set idx ⟨x0, x1, (bins.getD idx ⟨0, 0, 0⟩).count + 1⟩).map
        Bin.count).sum = (bins.map Bin.count).sum + 1 := by
  intro bins
  induction bins with
  | nil => intro idx h; simp at h
  | cons b rest ih =>
    intro idx h
    cases idx with
    | zero => simp [Nat.add_comm, Nat.add_assoc, Nat.add_left_comm]
    | succ j =>
      have hj : j < rest.length := by simpa using h
      simp only [List.set_cons_succ, List.getD_cons_succ, List.map_cons,
        List.sum_cons, ih j hj]
      omega

/-- The counting loop preserves the number of bins. -/
theorem histCount_length (mn bw mx : ℚ) (k : Nat) :
    ∀ (data : List ℚ) (bins : List Bin),
      (histCount mn bw mx k bins data).length = bins.length := by
  intro data
  induction data with
  | nil => intro bins; rfl
  | cons v rest ih =>
    intro bins
    rw [histCount]
    by_cases hskip : v < mn ∨ mx < v
    · rw [if_pos hskip]
      exact ih bins
    · rw [if_neg hskip]
      rw [ih]
      simp

/-- When every value lies in `[mn, mx]` and there is at least one bin, the
counting loop adds exactly one count per value. -/
theorem histCount_sum (mn bw mx : ℚ) (k : Nat) (hk : 1 ≤ k) :
    ∀ (data : List ℚ) (bins : List Bin), bins.length = k →
      (∀ v ∈ data, mn ≤ v ∧ v ≤ mx) →
      ((histCount mn bw mx k bins data).map Bin.count).sum
        = (bins.map Bin.count).sum + data.length := by
  intro data
  induction data with
  | nil => intro bins _ _; rfl
  | cons v rest ih =>
    intro bins hlen hbound
    have hv := hbound v (List.mem_cons_self v rest)
    have hskip : ¬ (v < mn ∨ mx < v) := by
      push_neg
      exact ⟨hv.1, hv.2⟩
    rw [histCount, if_neg hskip]
    have hidx : min ((Int.floor ((v - mn) / bw)).toNat) (k - 1) < bins.length := by
      rw [hlen]
      omega
    have hset := sum_count_set
      ((bins.getD (min ((Int.floor ((v - mn) / bw)).toNat) (k - 1)) ⟨0, 0, 0⟩).x0)
      ((bins.getD (min ((Int.floor ((v - mn) / bw)).toNat) (k - 1)) ⟨0, 0, 0⟩).x1)
      bins (min ((Int.floor ((v - mn) / bw)).toNat) (k - 1)) hidx
    have hlen' : (bins.set (min ((Int.floor ((v - mn) / bw)).toNat) (k - 1))
        ⟨(bins.getD (min ((Int.floor ((v - mn) / bw)).toNat) (k - 1)) ⟨0, 0, 0⟩).x0,
         (bins.getD (min ((Int.floor ((v - mn) / bw)).toNat) (k - 1)) ⟨0, 0, 0⟩).x1,
         (bins.getD (min ((Int.floor ((v - mn) / bw)).toNat) (k - 1)) ⟨0, 0, 0⟩).count
           + 1⟩).length = k := by
      rw [List.length_set, hlen]
    rw [ih _ hlen' (fun w hw => hbound w (List.mem_cons_of_mem v hw)), hset]
    simp only [List.length_cons]
    omega

/-- Counterexample to C4 as stated: single-element data `[5]` with
`Fixed(3)` hits the degenerate `max == min` branch and returns one bin, not
three. -/
theorem histogram_fixed_counterexample :
    (histogram_bins [(5 : ℚ)] (BinRule.Fixed 3)).length = 1
    ∧ (1 : Nat) ≠ 3 := by
  constructor
  · norm_num [histogram_bins, extent, EPS]
  · omega

/-- C4 amended: for non-empty data the bin counts always sum to
`data.len()`; the bin count equals `k` whenever `k ≥ 1` and the data
extent is at least `EPSILON` wide; in the degenerate case
(`|max - min| < EPSILON`) a single bin `[min, min+1)` holds all points. -/
theorem histogram_fixed_spec (data : List ℚ) (k : Nat) (hne : data ≠ []) :
    ((histogram_bins data (BinRule.Fixed k)).map Bin.count).sum = data.length
    ∧ (∀ mn mx, extent data = some (mn, mx) → EPS ≤ |mx - mn| → 1 ≤ k →
        (histogram_bins data (BinRule.Fixed k)).length = k)
    ∧ (∀ mn mx, extent data = some (mn, mx) → |mx - mn| < EPS →
        histogram_bins data (BinRule.Fixed k) = [⟨mn, mn + 1, data.length⟩]) := by
  obtain ⟨mn, mx, hext, hord, hbound⟩ := extent_spec data hne
  obtain ⟨v, rest, rfl⟩ := List.exists_cons_of_ne_nil hne
  by_cases hdeg : |mx - mn| < EPS
  · have hval : histogram_bins (v :: rest) (BinRule.Fixed k)
        = [⟨mn, mn + 1, (v :: rest).length⟩] := by
      simp only [histogram_bins]
      rw [hext]
      simp only [Option.getD_some]
      rw [if_pos hdeg]
    refine ⟨by rw [hval]; simp, ?_, ?_⟩
    · intro mn' mx' hext' hl _
      rw [hext] at hext'
      simp only [Option.some.injEq, Prod.mk.injEq] at hext'
      rw [← hext'.1, ← hext'.2] at hl
      exact absurd hdeg (not_lt.mpr hl)
    · intro mn' mx' hext' _
      rw [hext] at hext'
      simp only [Option.some.injEq, Prod.mk.injEq] at hext'
      rw [← hext'.1]
      exact hval
  · have hval : histogram_bins (v :: rest) (BinRule.Fixed k)
        = histCount mn ((mx - mn) / ((max k 1 : Nat) : ℚ)) mx (max k 1)
            ((List.range (max k 1)).map
              (fun i : ℕ => ⟨mn + (i : ℚ) * ((mx - mn) / ((max k 1 : Nat) : ℚ)),
                mn + ((i : ℚ) + 1) * ((mx - mn) / ((max k 1 : Nat) : ℚ)), 0⟩))
            (v :: rest) := by
      simp only [histogram_bins]
      rw [hext]
      simp only [Option.getD_some]
      rw [if_neg hdeg]
    have hzero : (((List.range (max k 1)).map
        (fun i : ℕ => (⟨mn + (i : ℚ) * ((mx - mn) / ((max k 1 : Nat) : ℚ)),
          mn + ((i : ℚ) + 1) * ((mx - mn) / ((max k 1 : Nat) : ℚ)), 0⟩ : Bin))).map
        Bin.count).sum = 0 := by
      apply List.sum_eq_zero
      intro x hx
      rw [List.map_map] at hx
      obtain ⟨i, _, rfl⟩ := List.mem_map.mp hx
      rfl
    have hbinlen : ((List.range (max k 1)).map
        (fun i : ℕ => (⟨mn + (i : ℚ) * ((mx - mn) / ((max k 1 : Nat) : ℚ)),
          mn + ((i : ℚ) + 1) * ((mx - mn) / ((max k 1 : Nat) : ℚ)), 0⟩ : Bin))).length
        = max k 1 := by
      simp
    refine ⟨?_, ?_, ?_⟩
    · rw [hval]
      rw [histCount_sum _ _ _ _ (by omega) _ _ hbinlen hbound, hzero]
      omega
    · intro mn' mx' hext' _ hk1
      rw [hval, histCount_length, hbinlen]
      omega
    · intro mn' mx' hext' hl
      rw [hext] at hext'
      simp only [Option.some.injEq, Prod.mk.injEq] at hext'
      rw [← hext'.1, ← hext'.2] at hl
      exact absurd hl hdeg

/-! ### C5: box plot whiskers and outliers -/

/-- `⌊x⌋.toNat` bounds `x` from below for non-negative `x`. -/
theorem toNat_floor_le (x : ℚ) (hx : 0 ≤ x) :
    (((Int.floor x).toNat : ℚ)) ≤ x ∧ x < ((Int.floor x).toNat : ℚ) + 1 := by
  have h0 : ((Int.floor x).toNat : ℤ) = Int.floor x :=
    Int.toNat_of_nonneg (Int.floor_nonneg.mpr hx)
  have hcast : (((Int.floor x).toNat : ℕ) : ℚ) = ((Int.floor x : ℤ) : ℚ) := by
    exact_mod_cast h0
  rw [hcast]
  exact ⟨Int.floor_le x, Int.lt_floor_add_one x⟩

/-- Indexing a sorted list with `getD` is monotone on in-bounds indices. -/
theorem sorted_getD_mono (s : List ℚ) (hs : s.Sorted (· ≤ ·)) (i j : Nat)
    (hij : i ≤ j) (hj : j < s.length) : s.getD i 0 ≤ s.getD j 0 := by
  have hi : i < s.length := lt_of_le_of_lt hij hj
  rw [List.getD_eq_getElem s 0 hi, List.getD_eq_getElem s 0 hj]
  have h : s.get ⟨i, hi⟩ ≤ s.get ⟨j, hj⟩ :=
    hs.rel_get_of_le (Fin.mk_le_mk.mpr hij)
  simpa using h

/-- The interpolated percentile of a sorted non-empty list stays between
the first and last element. -/
theorem percentile_sorted_bounds (s : List ℚ) (hs : s.Sorted (· ≤ ·))
    (hne : s ≠ []) (p : ℚ) (hp0 : 0 ≤ p) (hp1 : p ≤ 1) :
    s.getD 0 0 ≤ percentile_sorted s p
    ∧ percentile_sorted s p ≤ s.getD (s.length - 1) 0 := by
  unfold percentile_sorted
  have hn0 : s.length ≠ 0 := fun h => hne (List.eq_nil_of_length_eq_zero h)
  rw [if_neg hn0]
  by_cases h1 : s.length = 1
  · rw [if_pos h1]
    simp [h1]
  · rw [if_neg h1]
    have hn2 : 2 ≤ s.length := by omega
    have hq0 : (0 : ℚ) ≤ ((s.length - 1 : Nat) : ℚ) := by positivity
    have hh0 : 0 ≤ p * ((s.length - 1 : Nat) : ℚ) := mul_nonneg hp0 hq0
    obtain ⟨hf1, hf2⟩ := toNat_floor_le _ hh0
    have hhub : p * ((s.length - 1 : Nat) : ℚ) ≤ ((s.length - 1 : Nat) : ℚ) := by
      nlinarith
    have hlon : (Int.floor (p * ((s.length - 1 : Nat) : ℚ))).toNat
        ≤ s.length - 1 := by
      by_contra hcon
      push_neg at hcon
      have h2 : ((s.length - 1 : Nat) : ℚ) + 1
          ≤ (((Int.floor (p * ((s.length - 1 : Nat) : ℚ))).toNat : ℕ) : ℚ) := by
        exact_mod_cast Nat.succ_le_of_lt hcon
      linarith
    set lo := (Int.floor (p * ((s.length - 1 : Nat) : ℚ))).toNat with hlodef
    by_cases hbr : s.length ≤ lo + 1
    · rw [if_pos hbr]
      exact ⟨sorted_getD_mono s hs 0 (s.length - 1) (by omega) (by omega),
        le_refl _⟩
    · rw [if_neg hbr]
      have hadj : s.getD lo 0 ≤ s.getD (lo + 1) 0 :=
        sorted_getD_mono s hs lo (lo + 1) (by omega) (by omega)
      have h0lo : s.getD 0 0 ≤ s.getD lo 0 :=
        sorted_getD_mono s hs 0 lo (by omega) (by omega)
      have hub : s.getD (lo + 1) 0 ≤ s.getD (s.length - 1) 0 :=
        sorted_getD_mono s hs (lo + 1) (s.length - 1) (by omega) (by omega)
      constructor
      · nlinarith [hadj, hf1, hf2]
      · nlinarith [hadj, hf1, hf2]

/-- The interpolated percentile of a sorted list is monotone in `p`. -/
theorem percentile_sorted_mono (s : List ℚ) (hs : s.Sorted (· ≤ ·))
    (p p' : ℚ) (hp0 : 0 ≤ p) (hpp : p ≤ p') (hp1 : p' ≤ 1) :
    percentile_sorted s p ≤ percentile_sorted s p' := by
  unfold percentile_sorted
  by_cases hn0 : s.length = 0
  · rw [if_pos hn0, if_pos hn0]
  · rw [if_neg hn0, if_neg hn0]
    by_cases hn1 : s.length = 1
    · rw [if_pos hn1, if_pos hn1]
    · rw [if_neg hn1, if_neg hn1]
      have hn2 : 2 ≤ s.length := by omega
      have hq0 : (0 : ℚ) ≤ ((s.length - 1 : Nat) : ℚ) := by positivity
      have hh : p * ((s.length - 1 : Nat) : ℚ)
          ≤ p' * ((s.length - 1 : Nat) : ℚ) :=
        mul_le_mul_of_nonneg_right hpp hq0
      have hh0 : 0 ≤ p * ((s.length - 1 : Nat) : ℚ) := mul_nonneg hp0 hq0
      have hh0' : 0 ≤ p' * ((s.length - 1 : Nat) : ℚ) := le_trans hh0 hh
      obtain ⟨hf1, hf2⟩ := toNat_floor_le _ hh0
      obtain ⟨hf1', hf2'⟩ := toNat_floor_le _ hh0'
      have hlol : (Int.floor (p * ((s.length - 1 : Nat) : ℚ))).toNat
          ≤ (Int.floor (p' * ((s.length - 1 : Nat) : ℚ))).toNat :=
        Int.toNat_le_toNat (Int.floor_mono hh)
      have hub' : p' * ((s.length - 1 : Nat) : ℚ)
          ≤ ((s.length - 1 : Nat) : ℚ) := by nlinarith
      have hlon' : (Int.floor (p' * ((s.length - 1 : Nat) : ℚ))).toNat
          ≤ s.length - 1 := by
        by_contra hcon
        push_neg at hcon
        have h2 : ((s.length - 1 : Nat) : ℚ) + 1
            ≤ (((Int.floor (p' * ((s.length - 1 : Nat) : ℚ))).toNat : ℕ) : ℚ) := by
          exact_mod_cast Nat.succ_le_of_lt hcon
        linarith
      set lo := (Int.floor (p * ((s.length - 1 : Nat) : ℚ))).toNat with hlodef
      set lo' := (Int.floor (p' * ((s.length - 1 : Nat) : ℚ))).toNat with hlodef'
      by_cases hb1 : s.length ≤ lo + 1
      · rw [if_pos hb1, if_pos (show s.length ≤ lo' + 1 by omega)]
      · rw [if_neg hb1]
        have hadj : s.getD lo 0 ≤ s.getD (lo + 1) 0 :=
          sorted_getD_mono s hs lo (lo + 1) (by omega) (by omega)
        have key2 : 0 ≤ (1 - (p * ((s.length - 1 : Nat) : ℚ) - (lo : ℚ)))
            * (s.getD (lo + 1) 0 - s.getD lo 0) :=
          mul_nonneg (by linarith) (by linarith)
        by_cases hb2 : s.length ≤ lo' + 1
        · rw [if_pos hb2]
          have hup : s.getD (lo + 1) 0 ≤ s.getD (s.length - 1) 0 :=
            sorted_getD_mono s hs (lo + 1) (s.length - 1) (by omega) (by omega)
          nlinarith [key2, hup, hf1]
        · rw [if_neg hb2]
          rcases eq_or_lt_of_le hlol with heq | hlt
          · rw [← heq] at hf1' hf2' ⊢
            have hfr : p * ((s.length - 1 : Nat) : ℚ) - (lo : ℚ)
                ≤ p' * ((s.length - 1 : Nat) : ℚ) - (lo : ℚ) := by linarith
            have key : 0 ≤ ((p' * ((s.length - 1 : Nat) : ℚ) - (lo : ℚ))
                - (p * ((s.length - 1 : Nat) : ℚ) - (lo : ℚ)))
                * (s.getD (lo + 1) 0 - s.getD lo 0) :=
              mul_nonneg (by linarith) (by linarith)
            nlinarith [key]
          · have hmid : s.getD (lo + 1) 0 ≤ s.getD lo' 0 :=
              sorted_getD_mono s hs (lo + 1) lo' (by omega) (by omega)
            have hadj' : s.getD lo' 0 ≤ s.getD (lo' + 1) 0 :=
              sorted_getD_mono s hs lo' (lo' + 1) (by omega) (by omega)
            have key3 : 0 ≤ (p' * ((s.length - 1 : Nat) : ℚ) - (lo' : ℚ))
                * (s.getD (lo' + 1) 0 - s.getD lo' 0) :=
              mul_nonneg (by linarith) (by linarith)
            nlinarith [key2, key3, hmid, hf1]

/-- `find?` with an upward-closed predicate on an ascending sorted list
returns the least element satisfying it. -/
theorem find?_sorted_ge (c : ℚ) :
    ∀ (s : List ℚ), s.Sorted (· ≤ ·) →
      ∀ w, s.find? (fun x => decide (c ≤ x)) = some w →
        w ∈ s ∧ c ≤ w ∧ ∀ x ∈ s, c ≤ x → w ≤ x := by
  intro s
  induction s with
  | nil => intro _ w hw; simp at hw
  | cons a rest ih =>
    intro hsort w hw
    by_cases hc : c ≤ a
    · rw [List.find?_cons_of_pos _ (by simp [hc])] at hw
      simp only [Option.some.injEq] at hw
      subst hw
      refine ⟨List.mem_cons_self a rest, hc, ?_⟩
      intro x hx _
      rcases List.mem_cons.mp hx with rfl | hx
      · exact le_refl x
      · exact (List.sorted_cons.mp hsort).1 x hx
    · rw [List.find?_cons_of_neg _ (by simp [hc])] at hw
      obtain ⟨hwm, hwc, hwmin⟩ := ih (List.sorted_cons.mp hsort).2 w hw
      refine ⟨List.mem_cons_of_mem a hwm, hwc, ?_⟩
      intro x hx hcx
      rcases List.mem_cons.mp hx with rfl | hx
      · exact absurd hcx hc
      · exact hwmin x hx hcx

/-- `find?` with a downward-closed predicate on a descending sorted list
returns the greatest element satisfying it. -/
theorem find?_sorted_desc (c : ℚ) :
    ∀ (r : List ℚ), r.Sorted (· ≥ ·) →
      ∀ w, r.find? (fun x => decide (x ≤ c)) = some w →
        w ∈ r ∧ w ≤ c ∧ ∀ x ∈ r, x ≤ c → x ≤ w := by
  intro r
  induction r with
  | nil => intro _ w hw; simp at hw
  | cons a rest ih =>
    intro hsort w hw
    by_cases hc : a ≤ c
    · rw [List.find?_cons_of_pos _ (by simp [hc])] at hw
      simp only [Option.some.injEq] at hw
      subst hw
      refine ⟨List.mem_cons_self a rest, hc, ?_⟩
      intro x hx _
      rcases List.mem_cons.mp hx with rfl | hx
      · exact le_refl x
      · exact (List.sorted_cons.mp hsort).1 x hx
    · rw [List.find?_cons_of_neg _ (by simp [hc])] at hw
      obtain ⟨hwm, hwc, hwmax⟩ := ih (List.sorted_cons.mp hsort).2 w hw
      refine ⟨List.mem_cons_of_mem a hwm, hwc, ?_⟩
      intro x hx hcx
      rcases List.mem_cons.mp hx with rfl | hx
      · exact absurd hcx hc
      · exact hwmax x hx hcx

/-- C5: `box_plot_stats` returns `None` exactly on empty input; otherwise
the lower whisker is the smallest data value at or above the lower Tukey
fence `q1 - 1.5·iqr`, the upper whisker is the largest data value at or
below the upper fence `q3 + 1.5·iqr` (the extreme actual data values inside
the fences, not the fences themselves), and the outliers are exactly the
data values strictly outside the fences. -/
theorem box_plot_stats_spec (data : List ℚ) :
    (box_plot_stats data = none ↔ data = [])
    ∧ (∀ st, box_plot_stats data = some st →
        (st.lower_whisker ∈ data
          ∧ st.q1 - 3 / 2 * st.iqr ≤ st.lower_whisker
          ∧ ∀ x ∈ data, st.q1 - 3 / 2 * st.iqr ≤ x → st.lower_whisker ≤ x)
        ∧ (st.upper_whisker ∈ data
          ∧ st.upper_whisker ≤ st.q3 + 3 / 2 * st.iqr
          ∧ ∀ x ∈ data, x ≤ st.q3 + 3 / 2 * st.iqr → x ≤ st.upper_whisker)
        ∧ (∀ x, x ∈ st.outliers ↔ x ∈ data
            ∧ (x < st.q1 - 3 / 2 * st.iqr ∨ st.q3 + 3 / 2 * st.iqr < x))) := by
  constructor
  · constructor
    · intro hnone
      by_contra hne
      have he : ¬ (data.isEmpty = true) := by simp [List.isEmpty_iff, hne]
      simp [box_plot_stats, if_neg he] at hnone
      exact hne hnone
    · intro h
      subst h
      rfl
  · intro st hsome
    have hne : data ≠ [] := by
      intro h
      subst h
      simp [box_plot_stats] at hsome
    have he : ¬ (data.isEmpty = true) := by simp [List.isEmpty_iff, hne]
    simp only [box_plot_stats, if_neg he, Option.some.injEq] at hsome
    subst hsome
    set s := data.mergeSort (fun a b => decide (a ≤ b)) with hsdef
    have hsorted : s.Sorted (· ≤ ·) := List.sorted_mergeSort' data
    have hperm : s.Perm data := List.mergeSort_perm data _
    have hmem : ∀ x : ℚ, x ∈ s ↔ x ∈ data := fun x => hperm.mem_iff
    have hsne : s ≠ [] := by
      intro h
      apply hne
      have hl := hperm.length_eq
      rw [h] at hl
      exact List.eq_nil_of_length_eq_zero hl.symm
    have hslen : 1 ≤ s.length := by
      have h0 : s.length ≠ 0 := fun hc => hsne (List.eq_nil_of_length_eq_zero hc)
      omega
    set q1 := percentile_sorted s (1 / 4) with hq1def
    set q3 := percentile_sorted s (3 / 4) with hq3def
    have hq13 : q1 ≤ q3 := percentile_sorted_mono s hsorted (1 / 4) (3 / 4)
      (by norm_num) (by norm_num) (by norm_num)
    have hb1L : s.getD 0 0 ≤ q1 :=
      (percentile_sorted_bounds s hsorted hsne (1 / 4) (by norm_num)
        (by norm_num)).1
    have hb1R : q1 ≤ s.getD (s.length - 1) 0 :=
      (percentile_sorted_bounds s hsorted hsne (1 / 4) (by norm_num)
        (by norm_num)).2
    have hb3L : s.getD 0 0 ≤ q3 :=
      (percentile_sorted_bounds s hsorted hsne (3 / 4) (by norm_num)
        (by norm_num)).1
    have hlastmem : s.getD (s.length - 1) 0 ∈ s := by
      rw [List.getD_eq_getElem s 0 (by omega)]
      exact List.getElem_mem _
    have hheadmem : s.getD 0 0 ∈ s := by
      rw [List.getD_eq_getElem s 0 (by omega)]
      exact List.getElem_mem _
    refine ⟨?_, ?_, ?_⟩
    · -- lower whisker
      dsimp only
      cases hfind : s.find? (fun x => decide (q1 - 3 / 2 * (q3 - q1) ≤ x)) with
      | none =>
        exfalso
        have hnone := List.find?_eq_none.mp hfind _ hlastmem
        apply hnone
        simp only [decide_eq_true_eq]
        linarith
      | some w =>
        obtain ⟨hwm, hwc, hwmin⟩ :=
          find?_sorted_ge (q1 - 3 / 2 * (q3 - q1)) s hsorted w hfind
        simp only [Option.getD_some]
        exact ⟨(hmem w).mp hwm, hwc, fun x hx hfx => hwmin x ((hmem x).mpr hx) hfx⟩
    · -- upper whisker
      dsimp only
      cases hfind : s.reverse.find?
          (fun x => decide (x ≤ q3 + 3 / 2 * (q3 - q1))) with
      | none =>
        exfalso
        have hrevmem : s.getD 0 0 ∈ s.reverse := List.mem_reverse.mpr hheadmem
        have hnone := List.find?_eq_none.mp hfind _ hrevmem
        apply hnone
        simp only [decide_eq_true_eq]
        linarith
      | some w =>
        have hrevsorted : s.reverse.Sorted (· ≥ ·) := by
          unfold List.Sorted at hsorted ⊢
          rw [List.pairwise_reverse]
          exact hsorted
        obtain ⟨hwm, hwc, hwmax⟩ :=
          find?_sorted_desc (q3 + 3 / 2 * (q3 - q1)) s.reverse hrevsorted w hfind
        simp only [Option.getD_some]
        refine ⟨(hmem w).mp (List.mem_reverse.mp hwm), hwc, ?_⟩
        intro x hx hfx
        exact hwmax x (List.mem_reverse.mpr ((hmem x).mpr hx)) hfx
    · -- outliers
      intro x
      dsimp only
      rw [List.mem_filter]
      simp only [decide_eq_true_eq]
      constructor
      · rintro ⟨hxs, hcond⟩
        exact ⟨(hmem x).mp hxs, hcond⟩
      · rintro ⟨hxd, hcond⟩
        exact ⟨(hmem x).mpr hxd, hcond⟩

/-! ### C3: M4 downsampling -/

/-- `getLastD` of a non-empty list is a member. -/
theorem getLastD_mem_cons : ∀ (t : List DataPoint) (a : DataPoint),
    (a :: t).getLastD dp0 ∈ a :: t := by
  intro t
  induction t with
  | nil => intro a; simp [List.getLastD]
  | cons b r ih =>
    intro a
    have hstep : (a :: b :: r).getLastD dp0 = (b :: r).getLastD dp0 := rfl
    rw [hstep]
    exact List.mem_cons_of_mem a (ih b)

/-- The first-minimum fold stays inside the candidate list. -/
theorem minByY_mem : ∀ (t : List DataPoint) (h : DataPoint),
    minByY h t ∈ h :: t := by
  intro t
  induction t with
  | nil => intro h; simp [minByY]
  | cons p rest ih =>
    intro h
    have hstep : minByY h (p :: rest) = minByY (if p.y < h.y then p else h) rest := by
      simp only [minByY, List.foldl_cons]
    rw [hstep]
    have := ih (if p.y < h.y then p else h)
    rcases List.mem_cons.mp this with heq | hmem
    · rw [heq]
      split_ifs
      · exact List.mem_cons_of_mem h (List.mem_cons_self p rest)
      · exact List.mem_cons_self h (p :: rest)
    · exact List.mem_cons_of_mem h (List.mem_cons_of_mem p hmem)

/-- The last-maximum fold stays inside the candidate list. -/
theorem maxByY_mem : ∀ (t : List DataPoint) (h : DataPoint),
    maxByY h t ∈ h :: t := by
  intro t
  induction t with
  | nil => intro h; simp [maxByY]
  | cons p rest ih =>
    intro h
    have hstep : maxByY h (p :: rest) = maxByY (if h.y ≤ p.y then p else h) rest := by
      simp only [maxByY, List.foldl_cons]
    rw [hstep]
    have := ih (if h.y ≤ p.y then p else h)
    rcases List.mem_cons.mp this with heq | hmem
    · rw [heq]
      split_ifs
      · exact List.mem_cons_of_mem h (List.mem_cons_self p rest)
      · exact List.mem_cons_self h (p :: rest)
    · exact List.mem_cons_of_mem h (List.mem_cons_of_mem p hmem)

/-- The de-duplicating push adds at most one point per candidate. -/
theorem pushDedup_length : ∀ (pts acc : List DataPoint),
    (pushDedup acc pts).length ≤ acc.length + pts.length := by
  intro pts
  induction pts with
  | nil => intro acc; simp [pushDedup]
  | cons pt rest ih =>
    intro acc
    cases hl : acc.getLast? with
    | some prev =>
      simp only [pushDedup, hl]
      by_cases hc : closePt prev pt
      · rw [if_pos hc]
        have := ih acc
        simp only [List.length_cons]
        omega
      · rw [if_neg hc]
        have := ih (acc ++ [pt])
        simp only [List.length_append, List.length_cons, List.length_nil]
          at this ⊢
        omega
    | none =>
      simp only [pushDedup, hl]
      have := ih (acc ++ [pt])
      simp only [List.length_append, List.length_cons, List.length_nil]
        at this ⊢
      omega

/-- Every point produced by the de-duplicating push comes from the
accumulator or the candidates. -/
theorem pushDedup_mem : ∀ (pts acc : List DataPoint) (p : DataPoint),
    p ∈ pushDedup acc pts → p ∈ acc ∨ p ∈ pts := by
  intro pts
  induction pts with
  | nil => intro acc p hp; exact Or.inl hp
  | cons pt rest ih =>
    intro acc p hp
    have hres : ∀ (acc' : List DataPoint), p ∈ pushDedup acc' rest →
        acc' = acc ∨ acc' = acc ++ [pt] → p ∈ acc ∨ p ∈ pt :: rest := by
      intro acc' hp' hacc'
      rcases hacc' with rfl | rfl
      · rcases ih _ p hp' with h | h
        · exact Or.inl h
        · exact Or.inr (List.mem_cons_of_mem pt h)
      · rcases ih _ p hp' with h | h
        · rcases List.mem_append.mp h with h | h
          · exact Or.inl h
          · simp only [List.mem_singleton] at h
            exact Or.inr (h ▸ List.mem_cons_self pt rest)
        · exact Or.inr (List.mem_cons_of_mem pt h)
    cases hl : acc.getLast? with
    | some prev =>
      simp only [pushDedup, hl] at hp
      by_cases hc : closePt prev pt
      · rw [if_pos hc] at hp
        exact hres acc hp (Or.inl rfl)
      · rw [if_neg hc] at hp
        exact hres _ hp (Or.inr rfl)
    | none =>
      simp only [pushDedup, hl] at hp
      exact hres _ hp (Or.inr rfl)

/-- The de-duplicating push preserves x-sortedness when the accumulator is
sorted, the candidates are pairwise sorted, and every accumulator point is
left of every candidate. -/
theorem pushDedup_chain : ∀ (pts acc : List DataPoint),
    List.Chain' (fun p q : DataPoint => p.x ≤ q.x) acc →
    pts.Pairwise (fun p q : DataPoint => p.x ≤ q.x) →
    (∀ a ∈ acc, ∀ q ∈ pts, a.x ≤ q.x) →
    List.Chain' (fun p q : DataPoint => p.x ≤ q.x) (pushDedup acc pts) := by
  intro pts
  induction pts with
  | nil => intro acc hacc _ _; exact hacc
  | cons pt rest ih =>
    intro acc hacc hpts hcross
    have hnext : ∀ h : List.Chain' (fun p q : DataPoint => p.x ≤ q.x) (acc ++ [pt]),
        List.Chain' (fun p q : DataPoint => p.x ≤ q.x)
          (pushDedup (acc ++ [pt]) rest) := by
      intro h
      apply ih _ h (List.Pairwise.of_cons hpts)
      intro a ha q hq
      rcases List.mem_append.mp ha with ha | ha
      · exact hcross a ha q (List.mem_cons_of_mem pt hq)
      · simp only [List.mem_singleton] at ha
        subst ha
        exact (List.pairwise_cons.mp hpts).1 q hq
    have happ : List.Chain' (fun p q : DataPoint => p.x ≤ q.x) (acc ++ [pt]) := by
      apply List.Chain'.append hacc (List.chain'_singleton pt)
      intro x hx y hy
      simp only [List.head?_cons, Option.mem_def, Option.some.injEq] at hy
      subst hy
      exact hcross x (List.mem_of_mem_getLast? hx) pt (List.mem_cons_self pt rest)
    have hskip : List.Chain' (fun p q : DataPoint => p.x ≤ q.x)
        (pushDedup acc rest) := by
      apply ih _ hacc (List.Pairwise.of_cons hpts)
      intro a ha q hq
      exact hcross a ha q (List.mem_cons_of_mem pt hq)
    cases hl : acc.getLast? with
    | some prev =>
      simp only [pushDedup, hl]
      by_cases hc : closePt prev pt
      · rw [if_pos hc]
        exact hskip
      · rw [if_neg hc]
        exact hnext happ
    | none =>
      simp only [pushDedup, hl]
      exact hnext happ

/-- One M4 bucket adds at most four points, keeps the output x-sorted, and
only adds points from its own bucket x-range. -/
theorem m4Bucket_props (data : List DataPoint) (xmin w : ℚ) (np idx : Nat)
    (acc : List DataPoint)
    (hacc : List.Chain' (fun p q : DataPoint => p.x ≤ q.x) acc)
    (hbound : ∀ p ∈ acc, p.x < xmin + (idx : ℚ) * w) :
    (m4Bucket data xmin w np idx acc).length ≤ acc.length + 4
    ∧ List.Chain' (fun p q : DataPoint => p.x ≤ q.x)
        (m4Bucket data xmin w np idx acc)
    ∧ (∀ p ∈ m4Bucket data xmin w np idx acc,
        p ∈ acc ∨ (xmin + (idx : ℚ) * w ≤ p.x
          ∧ (p.x < xmin + (idx : ℚ) * w + w ∨ idx = np - 1))) := by
  cases hfil : data.filter (inBucket (xmin + (idx : ℚ) * w)
      (xmin + (idx : ℚ) * w + w) (decide (idx = np - 1))) with
  | nil =>
    have hout : m4Bucket data xmin w np idx acc = acc := by
      simp only [m4Bucket, hfil]
    rw [hout]
    exact ⟨by omega, hacc, fun p hp => Or.inl hp⟩
  | cons h t =>
    have hout : m4Bucket data xmin w np idx acc
        = pushDedup acc
            ([h, (h :: t).getLastD dp0, minByY h t, maxByY h t].mergeSort
              (fun a b => decide (a.x ≤ b.x))) := by
      simp only [m4Bucket, hfil]
    rw [hout]
    have hperm := List.mergeSort_perm
      [h, (h :: t).getLastD dp0, minByY h t, maxByY h t]
      (fun a b => decide (a.x ≤ b.x))
    have hmem4 : ∀ p ∈ [h, (h :: t).getLastD dp0, minByY h t,
        maxByY h t].mergeSort (fun a b => decide (a.x ≤ b.x)), p ∈ h :: t := by
      intro p hp
      have hp4 := hperm.mem_iff.mp hp
      simp only [List.mem_cons, List.not_mem_nil, or_false] at hp4
      rcases hp4 with h1 | h1 | h1 | h1
      · rw [h1]; exact List.mem_cons_self h t
      · rw [h1]; exact getLastD_mem_cons t h
      · rw [h1]; exact minByY_mem t h
      · rw [h1]; exact maxByY_mem t h
    have hmemrange : ∀ p ∈ [h, (h :: t).getLastD dp0, minByY h t,
        maxByY h t].mergeSort (fun a b => decide (a.x ≤ b.x)),
        xmin + (idx : ℚ) * w ≤ p.x
          ∧ (p.x < xmin + (idx : ℚ) * w + w ∨ idx = np - 1) := by
      intro p hp
      have hmem := hmem4 p hp
      rw [← hfil] at hmem
      have hin := (List.mem_filter.mp hmem).2
      unfold inBucket at hin
      simp only [Bool.and_eq_true, Bool.or_eq_true, decide_eq_true_eq] at hin
      exact hin
    have hpairwise : ([h, (h :: t).getLastD dp0, minByY h t,
        maxByY h t].mergeSort (fun a b => decide (a.x ≤ b.x))).Pairwise
        (fun p q : DataPoint => p.x ≤ q.x) := by
      have hsm : ([h, (h :: t).getLastD dp0, minByY h t,
          maxByY h t].mergeSort (fun a b => decide (a.x ≤ b.x))).Pairwise
          (fun a b => decide (a.x ≤ b.x) = true) := by
        apply List.sorted_mergeSort
        · intro a b c h1 h2
          simp only [decide_eq_true_eq] at *
          exact le_trans h1 h2
        · intro a b
          simp only [Bool.or_eq_true, decide_eq_true_eq]
          exact le_total a.x b.x
      exact hsm.imp (fun hab => by simpa using hab)
    refine ⟨?_, ?_, ?_⟩
    · have h1 := pushDedup_length
        ([h, (h :: t).getLastD dp0, minByY h t, maxByY h t].mergeSort
          (fun a b => decide (a.x ≤ b.x))) acc
      have h2 : ([h, (h :: t).getLastD dp0, minByY h t,
          maxByY h t].mergeSort (fun a b => decide (a.x ≤ b.x))).length = 4 := by
        rw [List.length_mergeSort]
        rfl
      omega
    · apply pushDedup_chain _ acc hacc hpairwise
      intro a ha q hq
      have hr := hmemrange q hq
      have hb := hbound a ha
      linarith [hr.1]
    · intro p hp
      rcases pushDedup_mem _ acc p hp with hmem | hmem
      · exact Or.inl hmem
      · exact Or.inr (hmemrange p hmem)

/-- The M4 bucket loop keeps the accumulated output sorted and bounded by
four points per bucket. -/
theorem m4Loop_inv (data : List DataPoint) (xmin w : ℚ) (np : Nat)
    (hw : 0 < w) :
    ∀ count i acc, i + count = np →
      List.Chain' (fun p q : DataPoint => p.x ≤ q.x) acc →
      (∀ p ∈ acc, p.x < xmin + (i : ℚ) * w) →
      List.Chain' (fun p q : DataPoint => p.x ≤ q.x)
        (m4Loop data xmin w np i count acc)
      ∧ (m4Loop data xmin w np i count acc).length ≤ acc.length + 4 * count := by
  intro count
  induction count with
  | zero =>
    intro i acc _ hacc _
    exact ⟨hacc, by simp [m4Loop]⟩
  | succ c ih =>
    intro i acc hi hacc hbound
    obtain ⟨hlen, hchain, hmem⟩ := m4Bucket_props data xmin w np i acc hacc hbound
    have hloop : m4Loop data xmin w np i (c + 1) acc
        = m4Loop data xmin w np (i + 1) c (m4Bucket data xmin w np i acc) := rfl
    rw [hloop]
    cases c with
    | zero =>
      have hdone : m4Loop data xmin w np (i + 1) 0
          (m4Bucket data xmin w np i acc) = m4Bucket data xmin w np i acc := rfl
      rw [hdone]
      exact ⟨hchain, by omega⟩
    | succ d =>
      have hne : i ≠ np - 1 := by omega
      have hstep : ∀ p ∈ m4Bucket data xmin w np i acc,
          p.x < xmin + ((i + 1 : Nat) : ℚ) * w := by
        intro p hp
        rcases hmem p hp with hpa | ⟨hge, hlt⟩
        · have := hbound p hpa
          push_cast
          nlinarith
        · rcases hlt with hlt | habs
          · push_cast
            nlinarith
          · exact absurd habs hne
      have hrec := ih (i + 1) (m4Bucket data xmin w np i acc) (by omega)
        hchain hstep
      exact ⟨hrec.1, by omega⟩

/-- In an x-sorted list the first x is at most the last x. -/
theorem chain_head_le_last (data : List DataPoint)
    (hs : List.Chain' (fun p q : DataPoint => p.x ≤ q.x) data)
    (hne : data ≠ []) :
    (data.getD 0 dp0).x ≤ (data.getD (data.length - 1) dp0).x := by
  have hxs : List.Chain' (· ≤ ·) (data.map DataPoint.x) :=
    (List.chain'_map DataPoint.x).mpr hs
  have hsorted : (data.map DataPoint.x).Sorted (· ≤ ·) :=
    List.chain'_iff_pairwise.mp hxs
  have hlen : 1 ≤ data.length := by
    have h0 : data.length ≠ 0 := fun hc => hne (List.eq_nil_of_length_eq_zero hc)
    omega
  have h1 : (data.map DataPoint.x).getD 0 0 = (data.getD 0 dp0).x := by
    rw [List.getD_eq_getElem _ _ (by simp; omega),
      List.getD_eq_getElem _ _ (by omega)]
    simp
  have h2 : (data.map DataPoint.x).getD (data.length - 1) 0
      = (data.getD (data.length - 1) dp0).x := by
    rw [List.getD_eq_getElem _ _ (by simp; omega),
      List.getD_eq_getElem _ _ (by omega)]
    simp
  have := sorted_getD_mono (data.map DataPoint.x) hsorted 0 (data.length - 1)
    (by omega) (by simp; omega)
  rw [h1, h2] at this
  exact this

/-- C3: for x-sorted input, `m4_downsample` returns an empty result on
empty input or zero pixels; returns the input unchanged when
`data.len() ≤ 4·n_pixels` or when the x-extent is zero
(`x_max == x_min`); and otherwise emits at most `4·n_pixels` points.  The
output is x-sorted in every case. -/
theorem m4_spec (data : List DataPoint) (np : Nat)
    (hsorted : List.Chain' (fun p q : DataPoint => p.x ≤ q.x) data) :
    (data = [] ∨ np = 0 → m4_downsample data np = [])
    ∧ (np ≠ 0 → data.length ≤ 4 * np → m4_downsample data np = data)
    ∧ (np ≠ 0 → data ≠ [] →
        (data.getD (data.length - 1) dp0).x = (data.getD 0 dp0).x →
        m4_downsample data np = data)
    ∧ (np ≠ 0 → 4 * np < data.length →
        (data.getD (data.length - 1) dp0).x ≠ (data.getD 0 dp0).x →
        (m4_downsample data np).length ≤ 4 * np)
    ∧ List.Chain' (fun p q : DataPoint => p.x ≤ q.x) (m4_downsample data np) := by
  by_cases htriv : data.isEmpty = true ∨ np = 0
  · have hout : m4_downsample data np = [] := by
      simp only [m4_downsample, if_pos htriv]
    have hdata : data = [] ∨ np = 0 := by
      rcases htriv with h | h
      · exact Or.inl (List.isEmpty_iff.mp h)
      · exact Or.inr h
    refine ⟨fun _ => hout, fun hnp hlen => ?_, fun hnp hne _ => ?_,
      fun _ _ _ => by rw [hout]; simp, by rw [hout]; simp⟩
    · rcases hdata with h | h
      · rw [hout, h]
      · exact absurd h hnp
    · rcases hdata with h | h
      · exact absurd h hne
      · exact absurd h hnp
  · push_neg at htriv
    have hne : data ≠ [] := by
      intro h
      exact htriv.1 (by simp [h])
    have hnp : np ≠ 0 := htriv.2
    have hg1 : ¬ (data.isEmpty = true ∨ np = 0) := by
      push_neg
      exact htriv
    by_cases hsmall : data.length ≤ 4 * np
    · have hout : m4_downsample data np = data := by
        simp only [m4_downsample, if_neg hg1, if_pos hsmall]
      exact ⟨fun h => by
          rcases h with h | h
          · exact absurd h hne
          · exact absurd h hnp,
        fun _ _ => hout, fun _ _ _ => hout,
        fun _ hbig _ => absurd hsmall (by omega), by rw [hout]; exact hsorted⟩
    · have hle : (data.getD 0 dp0).x ≤ (data.getD (data.length - 1) dp0).x :=
        chain_head_le_last data hsorted hne
      by_cases hflat : (data.getD (data.length - 1) dp0).x
          - (data.getD 0 dp0).x ≤ 0
      · have hout : m4_downsample data np = data := by
          simp only [m4_downsample, if_neg hg1, if_neg hsmall, if_pos hflat]
        have heq : (data.getD (data.length - 1) dp0).x = (data.getD 0 dp0).x := by
          linarith
        exact ⟨fun h => by
            rcases h with h | h
            · exact absurd h hne
            · exact absurd h hnp,
          fun _ hlen => absurd hlen hsmall, fun _ _ _ => hout,
          fun _ _ hnefl => absurd heq hnefl, by rw [hout]; exact hsorted⟩
      · have hw : 0 < ((data.getD (data.length - 1) dp0).x
            - (data.getD 0 dp0).x) / (np : ℚ) := by
          apply div_pos (by linarith)
          have : 0 < np := Nat.pos_of_ne_zero hnp
          exact_mod_cast this
        have hout : m4_downsample data np
            = m4Loop data (data.getD 0 dp0).x
              (((data.getD (data.length - 1) dp0).x - (data.getD 0 dp0).x)
                / (np : ℚ)) np 0 np [] := by
          simp only [m4_downsample, if_neg hg1, if_neg hsmall, if_neg hflat]
        obtain ⟨hchain, hlen⟩ := m4Loop_inv data (data.getD 0 dp0).x
          (((data.getD (data.length - 1) dp0).x - (data.getD 0 dp0).x)
            / (np : ℚ)) np hw np 0 [] (by omega) (by simp) (by simp)
        refine ⟨fun h => by
            rcases h with h | h
            · exact absurd h hne
            · exact absurd h hnp,
          fun _ hlen' => absurd hlen' hsmall,
          fun _ _ heq => by
            exfalso
            rw [heq] at hflat
            simp at hflat,
          fun _ _ _ => ?_, ?_⟩
        · rw [hout]
          simpa using hlen
        · rw [hout]
          exact hchain

/-! ### C8: encoding-driven conversion of a tidy table to a dataset -/

/-- Appending a key either disappears (already seen) or lands at the end
of the first-occurrence list. -/
theorem firstOccurrence_append (k : String) :
    ∀ (l : List String), firstOccurrence (l ++ [k])
      = if k ∈ l then firstOccurrence l else firstOccurrence l ++ [k] := by
  intro l
  induction l with
  | nil => simp [firstOccurrence]
  | cons a l ih =>
    rw [List.cons_append, firstOccurrence, ih, firstOccurrence]
    by_cases hkl : k ∈ l
    · rw [if_pos hkl, if_pos (List.mem_cons_of_mem a hkl)]
    · rw [if_neg hkl]
      by_cases hka : k = a
      · subst hka
        rw [if_pos (List.mem_cons_self k l)]
        simp [List.filter_append]
      · rw [if_neg (by
          intro hmem
          rcases List.mem_cons.mp hmem with h | h
          · exact hka h
          · exact hkl h)]
        simp [List.filter_append, hka]

/-- Every first-occurrence key occurs in the original list. -/
theorem mem_firstOccurrence : ∀ (l : List String) (x : String),
    x ∈ firstOccurrence l → x ∈ l := by
  intro l
  induction l with
  | nil => intro x hx; simp [firstOccurrence] at hx
  | cons k rest ih =>
    intro x hx
    rw [firstOccurrence] at hx
    rcases List.mem_cons.mp hx with rfl | hx
    · exact List.mem_cons_self x rest
    · exact List.mem_cons_of_mem k (ih x (List.mem_of_mem_filter hx))

/-- `lookup` after the entry/push step of the `HashMap` model. -/
theorem lookup_insertGroup (key : String) (row : DataRow) :
    ∀ (groups : List (String × List DataRow)) (k : String),
      (insertGroup groups key row).lookup k
        = if k = key then some ((groups.lookup key).getD [] ++ [row])
          else groups.lookup k := by
  intro groups
  induction groups with
  | nil =>
    intro k
    by_cases h : k = key
    · rw [h]
      simp [insertGroup, List.lookup]
    · have hb : (k == key) = false := by simp [h]
      simp [insertGroup, List.lookup, hb, h]
  | cons g rest ih =>
    intro k
    obtain ⟨k', rs⟩ := g
    by_cases hk' : k' = key
    · rw [hk']
      simp only [insertGroup, if_pos rfl]
      by_cases hkk : k = key
      · rw [hkk]
        simp [List.lookup]
      · have hb : (k == key) = false := by simp [hkk]
        simp [List.lookup, hb, hkk]
    · simp only [insertGroup, if_neg hk']
      have hbkey : (key == k') = false := by simp [Ne.symm hk']
      by_cases hkk : k = k'
      · rw [hkk]
        have hknek : ¬ k' = key := hk'
        have hb : (k' == k') = true := by simp
        simp [List.lookup, hb, hbkey, hknek]
      · have hb : (k == k') = false := by simp [hkk]
        by_cases hkey : k = key
        · rw [hkey]
          simp [List.lookup, hb, hbkey, ih, hkey]
        · simp [List.lookup, hb, hbkey, hkey, ih]

/-- The `group_by` fold invariant: the order component is the
first-occurrence key list of the processed prefix and the groups component
maps each seen key to its rows in table order. -/
theorem groupBy_fold_inv (col : String) :
    ∀ (rows pre : List DataRow) (order : List String)
      (groups : List (String × List DataRow)),
      order = firstOccurrence (pre.map (groupKey col)) →
      (∀ k, groups.lookup k
        = if k ∈ pre.map (groupKey col)
          then some (pre.filter (fun r => decide (groupKey col r = k)))
          else none) →
      (rows.foldl
        (fun (acc : List String × List (String × List DataRow)) row =>
          ((if (acc.2.lookup (groupKey col row)).isSome then acc.1
            else acc.1 ++ [groupKey col row]),
           insertGroup acc.2 (groupKey col row) row))
        (order, groups)).1
        = firstOccurrence ((pre ++ rows).map (groupKey col))
      ∧ (∀ k, ((rows.foldl
          (fun (acc : List String × List (String × List DataRow)) row =>
            ((if (acc.2.lookup (groupKey col row)).isSome then acc.1
              else acc.1 ++ [groupKey col row]),
             insertGroup acc.2 (groupKey col row) row))
          (order, groups)).2.lookup k)
          = if k ∈ (pre ++ rows).map (groupKey col)
            then some ((pre ++ rows).filter
              (fun r => decide (groupKey col r = k)))
            else none) := by
  intro rows
  induction rows with
  | nil =>
    intro pre order groups horder hgroups
    simp only [List.foldl_nil, List.append_nil]
    exact ⟨horder, hgroups⟩
  | cons row rest ih =>
    intro pre order groups horder hgroups
    simp only [List.foldl_cons]
    have hmapapp : (pre ++ [row]).map (groupKey col)
        = pre.map (groupKey col) ++ [groupKey col row] := by
      simp
    have hsome : (groups.lookup (groupKey col row)).isSome
        = decide (groupKey col row ∈ pre.map (groupKey col)) := by
      rw [hgroups]
      by_cases hmem : groupKey col row ∈ pre.map (groupKey col)
      · simp [hmem]
      · simp [hmem]
    have horder' :
        (if (groups.lookup (groupKey col row)).isSome then order
          else order ++ [groupKey col row])
        = firstOccurrence ((pre ++ [row]).map (groupKey col)) := by
      rw [hmapapp, firstOccurrence_append, hsome, horder]
      by_cases hmem : groupKey col row ∈ pre.map (groupKey col)
      · simp [hmem]
      · simp [hmem]
    have hgroups' : ∀ k,
        (insertGroup groups (groupKey col row) row).lookup k
        = if k ∈ (pre ++ [row]).map (groupKey col)
          then some ((pre ++ [row]).filter
            (fun r => decide (groupKey col r = k)))
          else none := by
      intro k
      rw [lookup_insertGroup, hmapapp]
      by_cases hkk : k = groupKey col row
      · rw [hkk]
        rw [if_pos rfl, if_pos (by simp)]
        rw [hgroups]
        have hfil : (pre ++ [row]).filter
            (fun r => decide (groupKey col r = groupKey col row))
            = pre.filter
                (fun r => decide (groupKey col r = groupKey col row))
              ++ [row] := by
          rw [List.filter_append]
          simp
        rw [hfil]
        by_cases hmem : groupKey col row ∈ pre.map (groupKey col)
        · simp [hmem]
        · have hnil : pre.filter
              (fun r => decide (groupKey col r = groupKey col row)) = [] := by
            rw [List.filter_eq_nil_iff]
            intro r hr
            simp only [decide_eq_true_eq]
            intro hgr
            exact hmem (List.mem_map.mpr ⟨r, hr, hgr⟩)
          simp [hmem, hnil]
      · rw [if_neg hkk, hgroups]
        have hmemapp : (k ∈ pre.map (groupKey col) ++ [groupKey col row])
            ↔ k ∈ pre.map (groupKey col) := by
          rw [List.mem_append]
          constructor
          · intro h
            rcases h with h | h
            · exact h
            · simp only [List.mem_singleton] at h
              exact absurd h hkk
          · exact Or.inl
        have hfil : (pre ++ [row]).filter
            (fun r => decide (groupKey col r = k))
            = pre.filter (fun r => decide (groupKey col r = k)) := by
          rw [List.filter_append]
          have hrow : decide (groupKey col row = k) = false := by
            simp only [decide_eq_false_iff_not]
            intro h
            exact hkk h.symm
          simp [hrow]
        by_cases hmem : k ∈ pre.map (groupKey col)
        · rw [if_pos hmem, if_pos (hmemapp.mpr hmem), hfil]
        · rw [if_neg hmem, if_neg (fun h => hmem (hmemapp.mp h))]
    have hassoc : pre ++ row :: rest = (pre ++ [row]) ++ rest := by
      simp
    rw [hassoc]
    exact ih (pre ++ [row]) _ _ horder' hgroups'

/-- Refinement: the imperative `group_by` fold equals the spec's
"first-occurrence keys, each with its rows in table order". -/
theorem group_by_eq_spec (rows : List DataRow) (col : String) :
    group_by rows col = groupBySpec rows col := by
  obtain ⟨h1, h2⟩ := groupBy_fold_inv col rows [] [] []
    (by simp [firstOccurrence]) (fun k => by simp [List.lookup])
  simp only [List.nil_append] at h1 h2
  unfold group_by groupBySpec
  dsimp only
  rw [h1]
  apply List.map_congr_left
  intro k hk
  have hmem : k ∈ rows.map (groupKey col) :=
    mem_firstOccurrence _ k hk
  rw [h2 k, if_pos hmem]
  rfl

/-- C8: with a color encoding, `to_dataset` produces one `Series` per
distinct stringified color value in first-occurrence order, each built by
`extract_xy` from exactly the rows of that group (rows with missing or
non-numeric x/y silently skipped by `extract_xy`); without a color
encoding it produces the single series `"default"` over all rows. -/
theorem to_dataset_spec (rows : List DataRow) (encoding : Encoding) :
    (∀ f, encoding.color = some f →
      to_dataset rows encoding
        = ⟨(groupBySpec rows f.name).map
            (fun g => ⟨g.1, extract_xy g.2 encoding.x.name encoding.y.name,
              true⟩)⟩)
    ∧ (encoding.color = none →
      to_dataset rows encoding
        = ⟨[⟨"default", extract_xy rows encoding.x.name encoding.y.name,
            true⟩]⟩) := by
  constructor
  · intro f hc
    simp only [to_dataset, hc]
    rw [group_by_eq_spec]
  · intro hc
    simp only [to_dataset, hc]

/-- C9: `interval_x` and `interval_xy` always store each axis as
`(min, max)` regardless of the argument order, so e.g. the point `x = 3`
(any `y`) is contained in `interval_x 5 2`. -/
theorem selection_interval_normalises (a b : ℚ) :
    Selection.interval_x a b = Selection.Interval (min a b, max a b) none
    ∧ (∀ c d : ℚ, Selection.interval_xy a b c d =
        Selection.Interval (min a b, max a b) (some (min c d, max c d)))
    ∧ (∀ y : ℚ, (Selection.interval_x 5 2).contains_point ⟨3, y⟩ 0 = true) := by
  refine ⟨?_, fun c d => ?_, fun y => ?_⟩
  · simp only [Selection.interval_x]
    by_cases h : a ≤ b
    · simp [h, min_eq_left h, max_eq_right h]
    · have h' : b ≤ a := le_of_not_le h
      simp [h, min_eq_right h', max_eq_left h']
  · simp only [Selection.interval_xy]
    by_cases h : a ≤ b
    · by_cases h2 : c ≤ d
      · simp [h, h2, min_eq_left, max_eq_right]
      · have h2' : d ≤ c := le_of_not_le h2
        simp [h, h2, min_eq_left, max_eq_right, min_eq_right h2',
          max_eq_left h2']
    · have h' : b ≤ a := le_of_not_le h
      by_cases h2 : c ≤ d
      · simp [h, h2, min_eq_right h', max_eq_left h', min_eq_left,
          max_eq_right]
      · have h2' : d ≤ c := le_of_not_le h2
        simp [h, h2, min_eq_right h', max_eq_left h', min_eq_right h2',
          max_eq_left h2']
  · have hx : Selection.interval_x (5 : ℚ) 2 = Selection.Interval (2, 5) none := by
      norm_num [Selection.interval_x]
    rw [hx]
    norm_num [Selection.contains_point]

/-! ### Concrete witnesses for the hypothesised theorems -/

/-- Witness for `m4_spec`: five sorted points at one pixel reduce to at
most four points. -/
theorem m4_spec_witness :
    List.Chain' (fun p q : DataPoint => p.x ≤ q.x)
      [⟨0, 0⟩, ⟨1, 5⟩, ⟨2, 1⟩, ⟨3, 4⟩, ⟨4, 2⟩]
    ∧ (m4_downsample [⟨0, 0⟩, ⟨1, 5⟩, ⟨2, 1⟩, ⟨3, 4⟩, ⟨4, 2⟩] 1).length
        ≤ 4 * 1 :=
  ⟨by norm_num [List.chain'_cons, List.chain'_singleton],
   (m4_spec [⟨0, 0⟩, ⟨1, 5⟩, ⟨2, 1⟩, ⟨3, 4⟩, ⟨4, 2⟩] 1
       (by norm_num [List.chain'_cons, List.chain'_singleton])).2.2.2.1
     (by norm_num) (by norm_num) (by norm_num)⟩

/-- Witness for `histogram_fixed_spec`: three values, two bins, counts sum
to three. -/
theorem histogram_fixed_spec_witness :
    ([(1 : ℚ), 2, 3] : List ℚ) ≠ []
    ∧ ((histogram_bins [(1 : ℚ), 2, 3] (BinRule.Fixed 2)).map Bin.count).sum
        = 3 :=
  ⟨by decide, (histogram_fixed_spec [(1 : ℚ), 2, 3] 2 (by decide)).1⟩

/-- Witness for `box_plot_stats_spec`: the singleton input `[0]`, whose
statistics are all zero, with the lower whisker a member of the input. -/
theorem box_plot_stats_spec_witness :
    box_plot_stats [(0 : ℚ)] = some ⟨0, 0, 0, 0, 0, 0, 0, []⟩
    ∧ (⟨0, 0, 0, 0, 0, 0, 0, []⟩ : BoxPlotStats).lower_whisker
        ∈ [(0 : ℚ)] := by
  have hsort : ([(0 : ℚ)]).mergeSort (fun a b => decide (a ≤ b)) = [0] :=
    List.mergeSort_eq_self (by simp)
  have h : box_plot_stats [(0 : ℚ)] = some ⟨0, 0, 0, 0, 0, 0, 0, []⟩ := by
    simp only [box_plot_stats, hsort]
    norm_num [percentile_sorted, List.find?]
  exact ⟨h, (((box_plot_stats_spec [(0 : ℚ)]).2 ⟨0, 0, 0, 0, 0, 0, 0, []⟩ h).1).1⟩

/-- Witness for `linear_regression_spec`: two points with the same x give
`None`. -/
theorem linear_regression_spec_witness :
    2 ≤ ([((1 : ℚ), 2), ((1 : ℚ), 3)] : List (ℚ × ℚ)).length
    ∧ linear_regression [((1 : ℚ), 2), ((1 : ℚ), 3)] = none :=
  ⟨by decide,
   (linear_regression_spec [((1 : ℚ), 2), ((1 : ℚ), 3)]).2.1 (by decide)
     (by decide)⟩

/-- Witness for `compute_arcs_spec`: all-zero input has non-positive
positive-sum and yields no slices. -/
theorem compute_arcs_spec_witness :
    (([(0 : ℚ), 0] : List ℚ).filter (fun v => decide (0 < v))).sum ≤ 0
    ∧ compute_arcs [(0 : ℚ), 0] = [] :=
  ⟨by decide, (compute_arcs_spec [(0 : ℚ), 0]).2.2.2.2.1 (by decide)⟩

/-- Witness for `to_dataset_spec`: a two-row table grouped by a text color
column. -/
theorem to_dataset_spec_witness :
    (Encoding.mk ⟨"x", DataType.Quantitative⟩ ⟨"y", DataType.Quantitative⟩
        (some ⟨"c", DataType.Nominal⟩) none).color
      = some ⟨"c", DataType.Nominal⟩
    ∧ to_dataset
        [[("x", FieldValue.Numeric 1), ("y", FieldValue.Numeric 2),
            ("c", FieldValue.Text "A")],
         [("x", FieldValue.Numeric 3), ("y", FieldValue.Numeric 4),
            ("c", FieldValue.Text "B")]]
        (Encoding.mk ⟨"x", DataType.Quantitative⟩ ⟨"y", DataType.Quantitative⟩
          (some ⟨"c", DataType.Nominal⟩) none)
      = ⟨(groupBySpec
            [[("x", FieldValue.Numeric 1), ("y", FieldValue.Numeric 2),
                ("c", FieldValue.Text "A")],
             [("x", FieldValue.Numeric 3), ("y", FieldValue.Numeric 4),
                ("c", FieldValue.Text "B")]] "c").map
          (fun g => ⟨g.1, extract_xy g.2 "x" "y", true⟩)⟩ :=
  ⟨rfl,
   (to_dataset_spec
     [[("x", FieldValue.Numeric 1), ("y", FieldValue.Numeric 2),
         ("c", FieldValue.Text "A")],
      [("x", FieldValue.Numeric 3), ("y", FieldValue.Numeric 4),
         ("c", FieldValue.Text "B")]]
     (Encoding.mk ⟨"x", DataType.Quantitative⟩ ⟨"y", DataType.Quantitative⟩
       (some ⟨"c", DataType.Nominal⟩) none)).1
     ⟨"c", DataType.Nominal⟩ rfl⟩

end Lodviz
